import Mathlib

/-!
Verification of the brainrust interpreter (src/main.rs) against its
natural-language specification.  The Rust source is shallowly embedded:
the `Command` enum becomes an inductive type, the vector-mutating passes
become structurally recursive list functions, machine integers become
`Int`/`Nat` with explicit two's-complement / mod-256 wrapping, and code
paths that panic in Rust are modelled with `Option` (`none` = panic).
-/

set_option maxRecDepth 4000

namespace Brainrust

/--
The instruction set: the `Command` enum of the source.  `INCPTR`/`DECPTR`
carry an `isize` amount, modelled as a mathematical integer on which every
wrapping operation of the source is made explicit through `wrap64`;
`INCVAL`/`DECVAL` carry a `u8` amount, modelled as a natural number with
arithmetic taken modulo 256.  `LOOPSTART`'s field is called `end` in the
source (`end` is reserved in Lean, so it is named `e` here) and `LOOPEND`'s
field is called `start`.
-/
inductive Command where
  | INCPTR (amount : Int)
  | DECPTR (amount : Int)
  | INCVAL (amount : Nat)
  | DECVAL (amount : Nat)
  | PUTC
  | GETC
  | LOOPSTART (e : Nat)
  | LOOPEND (start : Nat)
deriving DecidableEq, Repr

/-- Two's-complement wrap into the `isize` range `[-2^63, 2^63)`, the
semantics of Rust's `wrapping_add` on a 64-bit `isize`. -/
def wrap64 (x : Int) : Int := (x + 2 ^ 63) % 2 ^ 64 - 2 ^ 63

/--
One scan of the `remove_pair` closure inside `optimize_cancelling_pairs`:
the `for i in 0 .. program.len() - 1` loop walks adjacent pairs left to
right; at the first pair matching `(first, second)` in either order it
removes both elements and reports `true`, otherwise it reports `false`
and leaves the list unchanged.  This function is the loop body for a
nonempty list; the empty-list panic is handled by `cancelLoop`.
-/
def removePairAux (first second : Command) : List Command → Bool × List Command
  | a :: b :: rest =>
      if (a = first ∧ b = second) ∨ (a = second ∧ b = first) then (true, rest)
      else
        let r := removePairAux first second (b :: rest)
        (r.1, a :: r.2)
  | l => (false, l)

/--
The `while remove_pair(first, second) {}` loop.  Calling `remove_pair` on
an empty vector panics in the source: `program.len() - 1` underflows the
`usize` (a panic in a debug build) and the subsequent `program[0]` read is
out of bounds (a panic in a release build); this is modelled as `none`.
Each successful removal shortens the list by two, so the fuel passed by
`optimize_cancelling_pairs` (the current length of the list) always
suffices and the `0, _ :: _` branch is unreachable: with fuel `n` for a
list of length `n`, after `k` removals the fuel is `n - k` and the length
is `n - 2k`, so the fuel is positive whenever the list is nonempty.
-/
def cancelLoop (first second : Command) : Nat → List Command → Option (List Command)
  | _, [] => none
  | 0, _ :: _ => none
  | fuel + 1, a :: l =>
      match removePairAux first second (a :: l) with
      | (false, l') => some l'
      | (true, l') => cancelLoop first second fuel l'

/--
`optimize_cancelling_pairs` from the source: first repeatedly remove
adjacent `INCPTR 1`/`DECPTR 1` pairs (in either order), then repeatedly
remove adjacent `INCVAL 1`/`DECVAL 1` pairs.  `none` models a panic of
the source (which happens exactly when `remove_pair` is entered with an
empty vector).
-/
def optimize_cancelling_pairs (program : List Command) : Option (List Command) :=
  (cancelLoop (.INCPTR 1) (.DECPTR 1) program.length program).bind
    fun p => cancelLoop (.INCVAL 1) (.DECVAL 1) p.length p

/-- The four amount-bearing command kinds, the ones coalesced by
`optimize_sequences` (all other kinds fall into the `_ => continue` arm). -/
def isAmountKind : Command → Bool
  | .INCPTR _ => true
  | .DECPTR _ => true
  | .INCVAL _ => true
  | .DECVAL _ => true
  | _ => false

/-- The wrapping increment that `optimize_sequences` applies to the first
element of a run of identical commands (`amount.wrapping_add(1)` on
`isize` for the pointer kinds and on `u8` for the cell kinds). -/
def bump : Command → Command
  | .INCPTR a => .INCPTR (wrap64 (a + 1))
  | .DECPTR a => .DECPTR (wrap64 (a + 1))
  | .INCVAL a => .INCVAL ((a + 1) % 256)
  | .DECVAL a => .DECVAL ((a + 1) % 256)
  | c => c

/--
The loop `for i in 1 .. program.len()` of `optimize_sequences`, fused with
the final removal of the collected `to_remove` indices.  `prev` is the
original `program[i-1]`, `acc` is the current value of `program[i-seq_len]`
(the head of the current run, mutated in place by the source).  When the
next original element `y` equals `prev` and the head is one of the four
amount-bearing kinds, the head's amount is bumped and `y` is dropped
(pushed onto `to_remove` in the source); in the `_ => continue` arm
(non-amount kinds) and on a mismatch nothing is removed and `y` becomes
the new pending element.  In the source the comparison always reads the
original, not-yet-rewritten elements: positions are only mutated at
`i - seq_len`, which is always strictly to the left of every later read.
-/
def seqGo (prev acc : Command) : List Command → List Command
  | [] => [acc]
  | y :: ys =>
      if y = prev then
        if isAmountKind acc then seqGo y (bump acc) ys
        else acc :: seqGo y y ys
      else acc :: seqGo y y ys

/-- `optimize_sequences` from the source. -/
def optimize_sequences : List Command → List Command
  | [] => []
  | x :: xs => seqGo x x xs

/-- `optimize` from the source: cancelling-pair elimination, then sequence
coalescing.  `none` models a panic inside the cancelling-pairs pass. -/
def optimize (program : List Command) : Option (List Command) :=
  (optimize_cancelling_pairs program).map optimize_sequences

/-! ### Run-based characterization of `optimize_sequences` -/

/-- Split a list into its maximal runs of equal adjacent elements. -/
def splitRuns : List Command → List (List Command)
  | [] => []
  | [x] => [[x]]
  | x :: y :: l =>
      match splitRuns (y :: l) with
      | [] => [[x]]
      | r :: rs => if x = y then (x :: r) :: rs else [x] :: r :: rs

/--
Collapse of one maximal run, as the code actually behaves: a run of an
amount-bearing kind with head amount `a` and length `k ≥ 2` becomes a
single instruction of the same kind with amount `a + (k - 1)`, wrapped
(`isize` two's complement for the pointer kinds, modulo 256 for the cell
kinds); singleton runs and runs of `PUTC`/`GETC`/loop instructions are
kept verbatim.
-/
def collapseRun : List Command → List Command
  | .INCPTR a :: rest =>
      if rest = [] then [.INCPTR a] else [.INCPTR (wrap64 (a + rest.length))]
  | .DECPTR a :: rest =>
      if rest = [] then [.DECPTR a] else [.DECPTR (wrap64 (a + rest.length))]
  | .INCVAL a :: rest =>
      if rest = [] then [.INCVAL a] else [.INCVAL ((a + rest.length) % 256)]
  | .DECVAL a :: rest =>
      if rest = [] then [.DECVAL a] else [.DECVAL ((a + rest.length) % 256)]
  | r => r

/-- The run-by-run description of coalescing with the code's amounts. -/
def coalesce_runs (l : List Command) : List Command :=
  ((splitRuns l).map collapseRun).foldr (· ++ ·) []

/--
Collapse of one maximal run following the words of the spec sentence
behind claim C6: a run of an amount-bearing kind of length `k ≥ 2`
becomes a single instruction of the same kind whose amount equals the
run length `k` (wrapped to the kind's bit width); everything else is
kept verbatim.
-/
def collapseRunClaim : List Command → List Command
  | .INCPTR a :: rest =>
      if rest = [] then [.INCPTR a] else [.INCPTR (wrap64 (rest.length + 1))]
  | .DECPTR a :: rest =>
      if rest = [] then [.DECPTR a] else [.DECPTR (wrap64 (rest.length + 1))]
  | .INCVAL a :: rest =>
      if rest = [] then [.INCVAL a] else [.INCVAL ((rest.length + 1) % 256)]
  | .DECVAL a :: rest =>
      if rest = [] then [.DECVAL a] else [.DECVAL ((rest.length + 1) % 256)]
  | r => r

/-- The run-by-run reading of the coalescing pass exactly as claim C6
states it (amount = run length). -/
def coalesce_claim (l : List Command) : List Command :=
  ((splitRuns l).map collapseRunClaim).foldr (· ++ ·) []

/--
C1: the spec states that the optimizer is a total transform over every
instruction sequence, including the empty sequence and sequences whose
cancelling pairs eliminate every instruction.  The code violates this:
`remove_pair` evaluates `program.len() - 1` and `program[0]` on an empty
vector, so `optimize` panics (modelled as `none`) on the empty sequence
and on `[INCPTR 1, DECPTR 1]`, whose single cancelling pair empties the
vector before `remove_pair` is invoked one final time.
-/
theorem optimize_panics_on_empty_and_on_fully_cancelling :
    optimize [] = none ∧ optimize [.INCPTR 1, .DECPTR 1] = none := by
  decide

/--
C3: the spec's example claims the eight-instruction sequence
`[+ptr, -ptr, -ptr, +ptr, +cell, -cell, -cell, +cell]` reduces to the
empty sequence.  The code instead panics: the four cancelling pairs are
removed, after which `remove_pair` is invoked on the emptied vector and
`program.len() - 1` underflows / `program[0]` is out of bounds.
-/
theorem cancelling_pairs_panics_on_spec_example :
    optimize_cancelling_pairs
      [.INCPTR 1, .DECPTR 1, .DECPTR 1, .INCPTR 1,
       .INCVAL 1, .DECVAL 1, .DECVAL 1, .INCVAL 1] = none := by
  decide

/-! ### Proof that `optimize_sequences` is the run-by-run collapse -/

/-- Iterated `bump`: the head of a run after absorbing `k` duplicates. -/
def bumps : Command → Nat → Command
  | a, 0 => a
  | a, k + 1 => bumps (bump a) k

theorem isAmountKind_bump (c : Command) : isAmountKind (bump c) = isAmountKind c := by
  cases c <;> rfl

theorem splitRuns_cons (x : Command) (l : List Command) :
    splitRuns (x :: l) =
      (x :: l.takeWhile (· == x)) :: splitRuns (l.dropWhile (· == x)) := by
  induction l generalizing x with
  | nil => rfl
  | cons y ys ih =>
      by_cases h : x = y
      · subst h
        simp [splitRuns, ih x, List.takeWhile_cons, List.dropWhile_cons]
      · have hb : (y == x) = false := beq_eq_false_iff_ne.mpr (Ne.symm h)
        simp [splitRuns, ih y, List.takeWhile_cons, List.dropWhile_cons, hb, h]

theorem coalesce_runs_cons (x : Command) (l : List Command) :
    coalesce_runs (x :: l) =
      collapseRun (x :: l.takeWhile (· == x)) ++
        coalesce_runs (l.dropWhile (· == x)) := by
  simp [coalesce_runs, splitRuns_cons]

theorem bumps_INCPTR (k : Nat) : ∀ a : Int,
    bumps (.INCPTR a) (k + 1) = .INCPTR (wrap64 (a + (k + 1))) := by
  induction k with
  | zero => intro a; simp [bumps, bump]
  | succ k ih =>
      intro a
      show bumps (bump (.INCPTR a)) (k + 1) = _
      rw [bump, ih]
      have : wrap64 (wrap64 (a + 1) + (k + 1)) = wrap64 (a + (k + 1 + 1)) := by
        unfold wrap64; omega
      rw [this]; norm_num

theorem bumps_DECPTR (k : Nat) : ∀ a : Int,
    bumps (.DECPTR a) (k + 1) = .DECPTR (wrap64 (a + (k + 1))) := by
  induction k with
  | zero => intro a; simp [bumps, bump]
  | succ k ih =>
      intro a
      show bumps (bump (.DECPTR a)) (k + 1) = _
      rw [bump, ih]
      have : wrap64 (wrap64 (a + 1) + (k + 1)) = wrap64 (a + (k + 1 + 1)) := by
        unfold wrap64; omega
      rw [this]; norm_num

theorem bumps_INCVAL (k : Nat) : ∀ a : Nat,
    bumps (.INCVAL a) (k + 1) = .INCVAL ((a + (k + 1)) % 256) := by
  induction k with
  | zero => intro a; simp [bumps, bump]
  | succ k ih =>
      intro a
      show bumps (bump (.INCVAL a)) (k + 1) = _
      rw [bump, ih]
      have : ((a + 1) % 256 + (k + 1)) % 256 = (a + (k + 1 + 1)) % 256 := by omega
      rw [this]

theorem bumps_DECVAL (k : Nat) : ∀ a : Nat,
    bumps (.DECVAL a) (k + 1) = .DECVAL ((a + (k + 1)) % 256) := by
  induction k with
  | zero => intro a; simp [bumps, bump]
  | succ k ih =>
      intro a
      show bumps (bump (.DECVAL a)) (k + 1) = _
      rw [bump, ih]
      have : ((a + 1) % 256 + (k + 1)) % 256 = (a + (k + 1 + 1)) % 256 := by omega
      rw [this]

/-- Inside a run of elements equal to `prev`, `seqGo` bumps the pending
head once per absorbed duplicate and then continues on the rest. -/
theorem seqGo_amount (x : Command) :
    ∀ (l : List Command) (acc : Command), isAmountKind acc = true →
      seqGo x acc l =
        bumps acc (l.takeWhile (· == x)).length ::
          optimize_sequences (l.dropWhile (· == x)) := by
  intro l
  induction l generalizing x with
  | nil => intro acc hacc; simp [seqGo, bumps, optimize_sequences]
  | cons y ys ih =>
      intro acc hacc
      by_cases h : y = x
      · subst h
        show (if y = y then if isAmountKind acc = true then seqGo y (bump acc) ys
            else acc :: seqGo y y ys else acc :: seqGo y y ys) = _
        rw [if_pos rfl, if_pos hacc,
          ih y (bump acc) (by rw [isAmountKind_bump]; exact hacc)]
        simp [List.takeWhile_cons, List.dropWhile_cons, bumps]
      · have hb : (y == x) = false := beq_eq_false_iff_ne.mpr h
        show (if y = x then if isAmountKind acc = true then seqGo y (bump acc) ys
            else acc :: seqGo y y ys else acc :: seqGo y y ys) = _
        rw [if_neg h]
        simp [List.takeWhile_cons, List.dropWhile_cons, hb, bumps, optimize_sequences]

theorem seqGo_nonamount (x : Command) (hx : isAmountKind x = false)
    (xs : List Command) : seqGo x x xs = x :: optimize_sequences xs := by
  cases xs with
  | nil => rfl
  | cons y ys =>
      by_cases h : y = x
      · rw [seqGo, if_pos h, if_neg (by rw [hx]; exact Bool.false_ne_true)]
        rfl
      · rw [seqGo, if_neg h]; rfl

theorem coalesce_runs_nonamount_split (x : Command) (hx : isAmountKind x = false)
    (xs : List Command) :
    xs.takeWhile (· == x) ++ coalesce_runs (xs.dropWhile (· == x)) =
      coalesce_runs xs := by
  cases xs with
  | nil => rfl
  | cons y ys =>
      by_cases h : y = x
      · subst h
        have hcr : collapseRun (y :: ys.takeWhile (· == y)) =
            y :: ys.takeWhile (· == y) := by
          cases y <;> simp_all [collapseRun, isAmountKind]
        simp [List.takeWhile, List.dropWhile, coalesce_runs_cons, hcr]
      · have hb : (y == x) = false := by simp [beq_eq_false_iff_ne, h]
        simp [List.takeWhile, List.dropWhile, hb]

/-- Helper: `optimize_sequences` equals the run-by-run collapse. -/
theorem optimize_sequences_eq_runs (l : List Command) :
    optimize_sequences l = coalesce_runs l := by
  suffices h : ∀ (n : Nat) (m : List Command), m.length ≤ n →
      optimize_sequences m = coalesce_runs m from h l.length l le_rfl
  intro n
  induction n with
  | zero =>
      intro m hm
      have : m = [] := List.eq_nil_of_length_eq_zero (Nat.le_zero.mp hm)
      subst this; rfl
  | succ n ih =>
      intro m hm
      match m with
      | [] => rfl
      | x :: xs =>
          have hxs : xs.length ≤ n := by
            simp only [List.length_cons] at hm; omega
          have hdw : (xs.dropWhile (· == x)).length ≤ n :=
            le_trans (List.dropWhile_sublist (· == x)).length_le hxs
          cases hx : isAmountKind x with
          | true =>
              rw [show optimize_sequences (x :: xs) = seqGo x x xs from rfl,
                seqGo_amount x xs x hx, coalesce_runs_cons, ih _ hdw]
              cases htw : xs.takeWhile (· == x) with
              | nil =>
                  cases x <;> simp_all [collapseRun, bumps, isAmountKind]
              | cons t ts =>
                  cases x with
                  | INCPTR a =>
                      simp only [List.length_cons, bumps_INCPTR, collapseRun,
                        List.cons_ne_nil, if_false, reduceIte, List.singleton_append]
                      push_cast
                      ring_nf
                  | DECPTR a =>
                      simp only [List.length_cons, bumps_DECPTR, collapseRun,
                        List.cons_ne_nil, if_false, reduceIte, List.singleton_append]
                      push_cast
                      ring_nf
                  | INCVAL a =>
                      simp only [List.length_cons, bumps_INCVAL, collapseRun,
                        List.cons_ne_nil, if_false, reduceIte, List.singleton_append]
                  | DECVAL a =>
                      simp only [List.length_cons, bumps_DECVAL, collapseRun,
                        List.cons_ne_nil, if_false, reduceIte, List.singleton_append]
                  | PUTC => simp [isAmountKind] at hx
                  | GETC => simp [isAmountKind] at hx
                  | LOOPSTART e => simp [isAmountKind] at hx
                  | LOOPEND s => simp [isAmountKind] at hx
          | false =>
              rw [show optimize_sequences (x :: xs) = seqGo x x xs from rfl,
                seqGo_nonamount x hx, coalesce_runs_cons]
              have hcr : collapseRun (x :: xs.takeWhile (· == x)) =
                  x :: xs.takeWhile (· == x) := by
                cases x <;> simp_all [collapseRun, isAmountKind]
              rw [hcr, List.cons_append, coalesce_runs_nonamount_split x hx xs,
                ih xs hxs]

/--
C6 (amended): `optimize_sequences` collapses every maximal run of equal
amount-bearing instructions into one instruction of the same kind whose
amount is the head amount plus the run length minus one (wrapped), and
leaves every other instruction, and the order, unchanged.
-/
theorem optimize_sequences_is_run_collapse (l : List Command) :
    optimize_sequences l = coalesce_runs l :=
  optimize_sequences_eq_runs l

/--
C6 counterexample: on the sequence `[INCVAL 2, INCVAL 2]` — a maximal
run of two identical cell-increment instructions — the code produces
`INCVAL 3` (head amount 2 plus one per absorbed duplicate), not the
single instruction with amount equal to the run length 2 that the claim
predicts.
-/
theorem coalescing_amount_claim_counterexample :
    optimize_sequences [.INCVAL 2, .INCVAL 2] ≠
      coalesce_claim [.INCVAL 2, .INCVAL 2] := by
  decide

/-! ### Idempotence of the optimizer (claim C7) -/

/-- A command is unit-amount when its payload is 1 (the only amounts the
tokenizer emits); the payload-free kinds count as unit. -/
def unitAmount : Command → Bool
  | .INCPTR a => a == 1
  | .DECPTR a => a == 1
  | .INCVAL a => a == 1
  | .DECVAL a => a == 1
  | _ => true

/-- Adjacent pair that the cancelling-pairs pass removes: a unit
pointer-move pair or a unit cell-adjust pair, in either order. -/
def isCancellingPair (a b : Command) : Bool :=
  (a == .INCPTR 1 && b == .DECPTR 1) || (a == .DECPTR 1 && b == .INCPTR 1) ||
    (a == .INCVAL 1 && b == .DECVAL 1) || (a == .DECVAL 1 && b == .INCVAL 1)

/-- No adjacent cancelling pair anywhere in the list. -/
def noCancellingPairs : List Command → Bool
  | a :: b :: t => !isCancellingPair a b && noCancellingPairs (b :: t)
  | _ => true

/-- Whether some adjacent pair matches `(f, s)` in either order — the
condition scanned for by one `remove_pair` sweep. -/
def hasAdjPair (f s : Command) : List Command → Bool
  | a :: b :: t => ((a == f && b == s) || (a == s && b == f)) || hasAdjPair f s (b :: t)
  | _ => false

/-- No adjacent pair of equal amount-bearing commands (the pattern the
coalescing pass rewrites). -/
def noAdjEqualAmount : List Command → Bool
  | a :: b :: t => !(a == b && isAmountKind a) && noAdjEqualAmount (b :: t)
  | _ => true

/-- Constructor tag, used to speak about "same kind, different amount". -/
def kindTag : Command → Nat
  | .INCPTR _ => 0
  | .DECPTR _ => 1
  | .INCVAL _ => 2
  | .DECVAL _ => 3
  | .PUTC => 4
  | .GETC => 5
  | .LOOPSTART _ => 6
  | .LOOPEND _ => 7

theorem removePairAux_of_no_pair (f s : Command) :
    ∀ l, hasAdjPair f s l = false → removePairAux f s l = (false, l) := by
  intro l
  induction l with
  | nil => intro _; rfl
  | cons a t ih =>
      cases t with
      | nil => intro _; rfl
      | cons b t' =>
          intro h
          simp only [hasAdjPair, Bool.or_eq_false_iff] at h
          obtain ⟨h1, h2⟩ := h
          have hcond : ¬((a = f ∧ b = s) ∨ (a = s ∧ b = f)) := by
            simp only [Bool.or_eq_false_iff, Bool.and_eq_false_iff,
              beq_eq_false_iff_ne] at h1
            rcases h1 with ⟨hA, hB⟩
            rintro (⟨rfl, rfl⟩ | ⟨rfl, rfl⟩)
            · rcases hA with h | h <;> simp at h
            · rcases hB with h | h <;> simp at h
          rw [removePairAux, if_neg hcond, ih h2]

theorem removePairAux_false_eq (f s : Command) :
    ∀ l, (removePairAux f s l).1 = false → (removePairAux f s l).2 = l := by
  intro l
  induction l with
  | nil => intro _; rfl
  | cons a t ih =>
      cases t with
      | nil => intro _; rfl
      | cons b t' =>
          intro h
          by_cases hcond : (a = f ∧ b = s) ∨ (a = s ∧ b = f)
          · rw [removePairAux, if_pos hcond] at h
            simp at h
          · rw [removePairAux, if_neg hcond] at h ⊢
            simp only at h ⊢
            rw [ih h]

theorem removePairAux_sublist (f s : Command) :
    ∀ l, ((removePairAux f s l).2).Sublist l := by
  intro l
  induction l with
  | nil => exact List.Sublist.refl _
  | cons a t ih =>
      cases t with
      | nil => exact List.Sublist.refl _
      | cons b t' =>
          by_cases hcond : (a = f ∧ b = s) ∨ (a = s ∧ b = f)
          · rw [removePairAux, if_pos hcond]
            exact (List.sublist_cons_self _ _).trans (List.sublist_cons_self _ _)
          · rw [removePairAux, if_neg hcond]
            exact List.Sublist.cons₂ a ih

theorem cancelLoop_no_pair (f s : Command) (a : Command) (t : List Command)
    (h : hasAdjPair f s (a :: t) = false) :
    cancelLoop f s (a :: t).length (a :: t) = some (a :: t) := by
  show cancelLoop f s (t.length + 1) (a :: t) = some (a :: t)
  rw [cancelLoop, removePairAux_of_no_pair f s (a :: t) h]

theorem cancelLoop_some_ne_nil (f s : Command) :
    ∀ (fuel : Nat) (l out : List Command), cancelLoop f s fuel l = some out → out ≠ [] := by
  intro fuel
  induction fuel with
  | zero =>
      intro l out h
      cases l with
      | nil => simp [cancelLoop] at h
      | cons a t => simp [cancelLoop] at h
  | succ fuel ih =>
      intro l out h
      cases l with
      | nil => simp [cancelLoop] at h
      | cons a t =>
          rw [cancelLoop] at h
          cases hp : removePairAux f s (a :: t) with
          | mk moved l' =>
              rw [hp] at h
              cases moved with
              | false =>
                  have : l' = a :: t := by
                    have := removePairAux_false_eq f s (a :: t)
                    rw [hp] at this
                    exact this rfl
                  simp only [Option.some_inj] at h
                  rw [← h, this]
                  exact List.cons_ne_nil a t
              | true => exact ih l' out h

theorem cancelLoop_some_all (f s : Command) (p : Command → Bool) :
    ∀ (fuel : Nat) (l out : List Command), cancelLoop f s fuel l = some out →
      l.all p = true → out.all p = true := by
  intro fuel
  induction fuel with
  | zero =>
      intro l out h
      cases l with
      | nil => simp [cancelLoop] at h
      | cons a t => simp [cancelLoop] at h
  | succ fuel ih =>
      intro l out h hall
      cases l with
      | nil => simp [cancelLoop] at h
      | cons a t =>
          rw [cancelLoop] at h
          cases hp : removePairAux f s (a :: t) with
          | mk moved l' =>
              rw [hp] at h
              have hsub : l'.Sublist (a :: t) := by
                have := removePairAux_sublist f s (a :: t)
                rw [hp] at this
                exact this
              have hall' : l'.all p = true := by
                rw [List.all_eq_true] at hall ⊢
                exact fun x hx => hall x (hsub.subset hx)
              cases moved with
              | false =>
                  simp only [Option.some_inj] at h
                  rw [← h]; exact hall'
              | true => exact ih l' out h hall'

theorem noCancellingPairs_no_ptr_pair :
    ∀ l, noCancellingPairs l = true → hasAdjPair (.INCPTR 1) (.DECPTR 1) l = false := by
  intro l
  induction l with
  | nil => intro _; rfl
  | cons a t ih =>
      cases t with
      | nil => intro _; rfl
      | cons b t' =>
          intro h
          simp only [noCancellingPairs, Bool.and_eq_true, Bool.not_eq_true',
            isCancellingPair, Bool.or_eq_false_iff] at h
          obtain ⟨⟨⟨⟨h1, h2⟩, _⟩, _⟩, hrec⟩ := h
          simp only [hasAdjPair, Bool.or_eq_false_iff]
          exact ⟨⟨h1, h2⟩, ih hrec⟩

theorem noCancellingPairs_no_val_pair :
    ∀ l, noCancellingPairs l = true → hasAdjPair (.INCVAL 1) (.DECVAL 1) l = false := by
  intro l
  induction l with
  | nil => intro _; rfl
  | cons a t ih =>
      cases t with
      | nil => intro _; rfl
      | cons b t' =>
          intro h
          simp only [noCancellingPairs, Bool.and_eq_true, Bool.not_eq_true',
            isCancellingPair, Bool.or_eq_false_iff] at h
          obtain ⟨⟨⟨_, h3⟩, h4⟩, hrec⟩ := h
          simp only [hasAdjPair, Bool.or_eq_false_iff]
          exact ⟨⟨h3, h4⟩, ih hrec⟩

theorem cancelling_pairs_fixpoint (r : List Command) (hne : r ≠ [])
    (hnc : noCancellingPairs r = true) :
    optimize_cancelling_pairs r = some r := by
  match r, hne with
  | a :: t, _ =>
      rw [optimize_cancelling_pairs,
        cancelLoop_no_pair _ _ a t (noCancellingPairs_no_ptr_pair _ hnc)]
      rw [Option.some_bind]
      exact cancelLoop_no_pair _ _ a t (noCancellingPairs_no_val_pair _ hnc)

theorem seqGo_fixpoint :
    ∀ (xs : List Command) (x : Command), noAdjEqualAmount (x :: xs) = true →
      seqGo x x xs = x :: xs := by
  intro xs
  induction xs with
  | nil => intro x _; rfl
  | cons y ys ih =>
      intro x h
      simp only [noAdjEqualAmount, Bool.and_eq_true, Bool.not_eq_true',
        Bool.and_eq_false_iff] at h
      obtain ⟨h1, h2⟩ := h
      have ihy := ih y h2
      by_cases hyx : y = x
      · subst hyx
        have hak : isAmountKind y = false := by
          rcases h1 with h | h
          · simp at h
          · exact h
        show (if y = y then if isAmountKind y = true then seqGo y (bump y) ys
            else y :: seqGo y y ys else y :: seqGo y y ys) = _
        rw [if_pos rfl, if_neg (by rw [hak]; exact Bool.false_ne_true), ihy]
      · show (if y = x then if isAmountKind x = true then seqGo y (bump x) ys
            else x :: seqGo y y ys else x :: seqGo y y ys) = _
        rw [if_neg hyx, ihy]

theorem optimize_sequences_fixpoint (r : List Command)
    (h : noAdjEqualAmount r = true) : optimize_sequences r = r := by
  cases r with
  | nil => rfl
  | cons x xs => exact seqGo_fixpoint xs x h

theorem dropWhile_head_not (p : Command → Bool) (l : List Command)
    (y : Command) (ys : List Command) (h : l.dropWhile p = y :: ys) :
    p y = false := by
  have hh := List.head?_dropWhile_not p l
  rw [h] at hh
  simpa using hh

theorem unit_same_kind_eq (a b : Command) (ha : isAmountKind a = true)
    (hua : unitAmount a = true) (hub : unitAmount b = true)
    (hk : kindTag a = kindTag b) : a = b := by
  cases a <;> cases b <;>
    simp_all [isAmountKind, unitAmount, kindTag, beq_iff_eq]

theorem collapseRun_amount (x : Command) (hx : isAmountKind x = true)
    (tw : List Command) :
    ∃ z, collapseRun (x :: tw) = [z] ∧ kindTag z = kindTag x ∧
      isAmountKind z = true := by
  cases x with
  | INCPTR a =>
      cases tw with
      | nil => exact ⟨.INCPTR a, by simp [collapseRun], rfl, rfl⟩
      | cons t ts =>
          exact ⟨.INCPTR (wrap64 (a + (t :: ts).length)),
            by simp [collapseRun], rfl, rfl⟩
  | DECPTR a =>
      cases tw with
      | nil => exact ⟨.DECPTR a, by simp [collapseRun], rfl, rfl⟩
      | cons t ts =>
          exact ⟨.DECPTR (wrap64 (a + (t :: ts).length)),
            by simp [collapseRun], rfl, rfl⟩
  | INCVAL a =>
      cases tw with
      | nil => exact ⟨.INCVAL a, by simp [collapseRun], rfl, rfl⟩
      | cons t ts =>
          exact ⟨.INCVAL ((a + (t :: ts).length) % 256),
            by simp [collapseRun], rfl, rfl⟩
  | DECVAL a =>
      cases tw with
      | nil => exact ⟨.DECVAL a, by simp [collapseRun], rfl, rfl⟩
      | cons t ts =>
          exact ⟨.DECVAL ((a + (t :: ts).length) % 256),
            by simp [collapseRun], rfl, rfl⟩
  | PUTC => simp [isAmountKind] at hx
  | GETC => simp [isAmountKind] at hx
  | LOOPSTART e => simp [isAmountKind] at hx
  | LOOPEND st => simp [isAmountKind] at hx

theorem noAdj_run_prepend (x : Command) (hx : isAmountKind x = false) :
    ∀ (tw rest : List Command), (∀ c ∈ tw, c = x) →
      noAdjEqualAmount rest = true →
      noAdjEqualAmount (x :: (tw ++ rest)) = true := by
  intro tw
  induction tw with
  | nil =>
      intro rest _ hr
      cases rest with
      | nil => rfl
      | cons h t =>
          show (!(x == h && isAmountKind x) && noAdjEqualAmount (h :: t)) = true
          rw [hx, hr]
          simp
  | cons c tw' ih =>
      intro rest hmem hr
      have hcx : c = x := hmem c (List.mem_cons_self _ _)
      rw [List.cons_append, hcx]
      show (!(x == x && isAmountKind x) && noAdjEqualAmount (x :: (tw' ++ rest))) = true
      rw [hx, ih rest (fun d hd => hmem d (List.mem_cons_of_mem _ hd)) hr]
      simp

theorem coalesce_runs_unit_structure :
    ∀ (n : Nat) (x : Command) (xs : List Command), (x :: xs).length ≤ n →
      (x :: xs).all unitAmount = true →
      ∃ h t, coalesce_runs (x :: xs) = h :: t ∧ kindTag h = kindTag x ∧
        noAdjEqualAmount (h :: t) = true := by
  intro n
  induction n with
  | zero => intro x xs hlen _; simp at hlen
  | succ n ih =>
      intro x xs hlen hall
      have hxs_len : xs.length ≤ n := by
        simp only [List.length_cons] at hlen; omega
      have htw_mem : ∀ c ∈ xs.takeWhile (· == x), c = x := by
        intro c hc
        have := List.mem_takeWhile_imp hc
        simpa [beq_iff_eq] using this
      rw [coalesce_runs_cons]
      cases hx : isAmountKind x with
      | true =>
          obtain ⟨z, hz, hzk, hza⟩ := collapseRun_amount x hx (xs.takeWhile (· == x))
          rw [hz]
          cases hdw : xs.dropWhile (· == x) with
          | nil => exact ⟨z, [], by simp [coalesce_runs, splitRuns], hzk, rfl⟩
          | cons y ys =>
              have hdw_sub : (y :: ys) ⊆ x :: xs := by
                rw [← hdw]
                exact ((List.dropWhile_sublist (· == x)).trans
                  (List.sublist_cons_self x xs)).subset
              have hlen' : (y :: ys).length ≤ n := by
                have := (List.dropWhile_sublist (· == x) (l := xs)).length_le
                rw [hdw] at this
                omega
              have hall' : (y :: ys).all unitAmount = true := by
                rw [List.all_eq_true] at hall ⊢
                exact fun d hd => hall d (hdw_sub hd)
              obtain ⟨h, t, hct, hk, hnadj⟩ := ih y ys hlen' hall'
              rw [hct]
              refine ⟨z, h :: t, rfl, hzk, ?_⟩
              show (!(z == h && isAmountKind z) && noAdjEqualAmount (h :: t)) = true
              rw [hnadj, Bool.and_true]
              have hyne : y ≠ x := by
                have := dropWhile_head_not (· == x) xs y ys hdw
                simpa [beq_eq_false_iff_ne] using this
              have hzh : z ≠ h := by
                intro hzh
                apply hyne
                have hk_xy : kindTag x = kindTag y := by
                  rw [← hzk, hzh, hk]
                have hux : unitAmount x = true := by
                  rw [List.all_eq_true] at hall
                  exact hall x (List.mem_cons_self _ _)
                have huy : unitAmount y = true := by
                  rw [List.all_eq_true] at hall
                  exact hall y (hdw_sub (List.mem_cons_self _ _))
                exact (unit_same_kind_eq x y hx hux huy hk_xy).symm
              have : (z == h) = false := beq_eq_false_iff_ne.mpr hzh
              rw [this]
              simp
      | false =>
          have hcr : collapseRun (x :: xs.takeWhile (· == x)) =
              x :: xs.takeWhile (· == x) := by
            cases x <;> simp_all [collapseRun, isAmountKind]
          rw [hcr]
          cases hdw : xs.dropWhile (· == x) with
          | nil =>
              refine ⟨x, xs.takeWhile (· == x), by simp [coalesce_runs, splitRuns], rfl, ?_⟩
              have := noAdj_run_prepend x hx (xs.takeWhile (· == x)) [] htw_mem rfl
              simpa using this
          | cons y ys =>
              have hdw_sub : (y :: ys) ⊆ x :: xs := by
                rw [← hdw]
                exact ((List.dropWhile_sublist (· == x)).trans
                  (List.sublist_cons_self x xs)).subset
              have hlen' : (y :: ys).length ≤ n := by
                have := (List.dropWhile_sublist (· == x) (l := xs)).length_le
                rw [hdw] at this
                omega
              have hall' : (y :: ys).all unitAmount = true := by
                rw [List.all_eq_true] at hall ⊢
                exact fun d hd => hall d (hdw_sub hd)
              obtain ⟨h, t, hct, hk, hnadj⟩ := ih y ys hlen' hall'
              rw [hct]
              refine ⟨x, xs.takeWhile (· == x) ++ (h :: t), rfl, rfl, ?_⟩
              exact noAdj_run_prepend x hx (xs.takeWhile (· == x)) (h :: t) htw_mem hnadj

/--
C7 (amended): on any instruction sequence whose pointer-move and
cell-adjust amounts are all 1 (every sequence the tokenizer can produce),
if the optimizer succeeds and its result contains no adjacent cancelling
pair, then the optimizer maps its own result to itself, i.e. a second
application changes nothing.  (Both restrictions are forced: see the
counterexamples `optimize_twice_differs_on_units` and the non-unit input
`[INCVAL 1, INCVAL 1, INCVAL 2]` whose coalesced result coalesces again.)
-/
theorem optimize_idempotent_amended (l r : List Command)
    (hunit : l.all unitAmount = true)
    (hopt : optimize l = some r)
    (hnc : noCancellingPairs r = true) :
    optimize r = some r := by
  rw [optimize, Option.map_eq_some'] at hopt
  obtain ⟨c, hc, hr⟩ := hopt
  rw [optimize_cancelling_pairs, Option.bind_eq_some] at hc
  obtain ⟨c1, hc1, hc2⟩ := hc
  have hc_ne : c ≠ [] := cancelLoop_some_ne_nil _ _ _ _ _ hc2
  have hc1_unit : c1.all unitAmount = true :=
    cancelLoop_some_all _ _ _ _ _ _ hc1 hunit
  have hc_unit : c.all unitAmount = true :=
    cancelLoop_some_all _ _ _ _ _ _ hc2 hc1_unit
  match c, hc_ne, hc_unit with
  | x :: xs, _, hc_unit =>
      have hr' : r = coalesce_runs (x :: xs) := by
        rw [← hr, optimize_sequences_eq_runs]
      obtain ⟨h, t, hct, _, hnadj⟩ :=
        coalesce_runs_unit_structure (x :: xs).length x xs le_rfl hc_unit
      have hrht : r = h :: t := by rw [hr', hct]
      have hrne : r ≠ [] := by rw [hrht]; exact List.cons_ne_nil _ _
      rw [optimize, cancelling_pairs_fixpoint r hrne hnc, Option.map_some',
        optimize_sequences_fixpoint r (by rw [hrht]; exact hnadj)]

/--
C7 counterexample: the optimizer is not idempotent.  On the unit-amount
sequence `[INCPTR 1, INCVAL 1, DECVAL 1, DECPTR 1]` the value-pair sweep
removes the inner cell pair and leaves `[INCPTR 1, DECPTR 1]` (the
pointer sweep has already finished), so the first application returns
that pair; the second application cancels it, empties the vector, and
panics when `remove_pair` is invoked once more.
-/
theorem optimize_twice_differs_on_units :
    (optimize [.INCPTR 1, .INCVAL 1, .DECVAL 1, .DECPTR 1]).bind optimize ≠
      optimize [.INCPTR 1, .INCVAL 1, .DECVAL 1, .DECPTR 1] := by
  decide

/-- Witness for `optimize_idempotent_amended` at a concrete input. -/
theorem optimize_idempotent_amended_witness :
    optimize [.INCVAL 1, .PUTC] = some [.INCVAL 1, .PUTC] :=
  optimize_idempotent_amended [.INCVAL 1, .PUTC] [.INCVAL 1, .PUTC]
    (by decide) (by decide) (by decide)

/-! ### The front end and the driver pipeline (claims C2, C4, C5) -/

/-- The eight instruction characters (`allowed_chars` in the source). -/
def allowed_chars : List Char := ['>', '<', '+', '-', '.', ',', '[', ']']

/-- `preprocess` from the source: keep exactly the allowed characters. -/
def preprocess (program : List Char) : List Char :=
  program.filter (fun c => allowed_chars.contains c)

/-- One step of `tokenize`; the `panic!` arm taken on a character outside
the symbol set is modelled as `none`. -/
def tokenizeChar : Char → Option Command
  | '>' => some (.INCPTR 1)
  | '<' => some (.DECPTR 1)
  | '+' => some (.INCVAL 1)
  | '-' => some (.DECVAL 1)
  | '.' => some .PUTC
  | ',' => some .GETC
  | '[' => some (.LOOPSTART 0)
  | ']' => some (.LOOPEND 0)
  | _ => none

/-- `tokenize` from the source: map every character to its token,
propagating the panic. -/
def tokenize (input : List Char) : Option (List Command) :=
  input.mapM tokenizeChar

/--
The loop of `find_loops`, as structural recursion over the suffix `rest`
of instructions not yet visited; `cur` is the current (partially
rewritten) vector, `i` the loop index and `stack` the `loop_starts`
stack with its most recently pushed index first.  The source reads
`commands[i]` from the mutated vector, but every mutation targets the
current index `i` or a popped `start < i`, never a position `> i`, so
the suffix of the mutated vector from `i` on always equals the original
suffix `rest` and reading from `rest` is faithful.
-/
def flGo : List Command → List Command → Nat → List Nat → Except String (List Command)
  | [], cur, _, stack =>
      if stack.isEmpty then .ok cur
      else .error "More opening than closing loop brackets"
  | c :: rest, cur, i, stack =>
      match c with
      | .LOOPSTART _ => flGo rest cur (i + 1) (i :: stack)
      | .LOOPEND _ =>
          match stack with
          | [] => .error "Cannot find opening bracket for closing bracket"
          | start :: stack' =>
              flGo rest ((cur.set start (.LOOPSTART i)).set i (.LOOPEND start))
                (i + 1) stack'
      | _ => flGo rest cur (i + 1) stack

/-- `find_loops` from the source. -/
def find_loops (commands : List Command) : Except String (List Command) :=
  flGo commands commands 0 []

/-- Result of the driver: a resolved program, a reported error, or a
panic (abort) of one of the stages. -/
inductive PipeResult where
  | ok (commands : List Command)
  | err (msg : String)
  | panicked
deriving DecidableEq, Repr

/-- The `run` driver from the source after the file has been read:
`preprocess`, `tokenize`, `optimize`, then `find_loops`, propagating the
first error and aborting on a panic. -/
def pipeline (src : List Char) : PipeResult :=
  match tokenize (preprocess src) with
  | none => .panicked
  | some commands =>
      match optimize commands with
      | none => .panicked
      | some opt =>
          match find_loops opt with
          | .error e => .err e
          | .ok resolved => .ok resolved

/-- Modelled from the spec (claim C2): the same stages in the order the
spec lists them — Preprocessor, Tokenizer, Loop Resolver, Optimizer —
i.e. loop resolution on the tokenizer's output before the optimizer
runs.  Used only to compare against the order the code actually uses. -/
def pipelineSpecOrder (src : List Char) : PipeResult :=
  match tokenize (preprocess src) with
  | none => .panicked
  | some commands =>
      match find_loops commands with
      | .error e => .err e
      | .ok resolved =>
          match optimize resolved with
          | none => .panicked
          | some opt => .ok opt

/--
C2 counterexample: on the source text `[+-]` the code's pipeline
optimizes first (cancelling `+-`) and then resolves loops on the
shortened sequence, giving `LOOPSTART 1 / LOOPEND 0`; resolving loops
first, as the claim's stage order demands, gives `LOOPSTART 3` before
the optimizer shrinks the sequence.  The two stage orders disagree.
-/
theorem pipeline_order_counterexample :
    pipeline ['[', '+', '-', ']'] ≠ pipelineSpecOrder ['[', '+', '-', ']'] := by
  decide

/-! ### Loop resolution: bracket depth, matching, and the stack invariant -/

/-- Whether a command is a loop-open token. -/
def isOpenB : Command → Bool
  | .LOOPSTART _ => true
  | _ => false

/-- Whether a command is a loop-close token. -/
def isCloseB : Command → Bool
  | .LOOPEND _ => true
  | _ => false

/-- Bracket depth of the length-`k` prefix: loop-opens minus loop-closes. -/
def depth (l : List Command) (k : Nat) : Int :=
  ((l.take k).countP isOpenB : Int) - ((l.take k).countP isCloseB : Int)

/-- Balanced bracket structure: no prefix closes more than it has opened,
and the whole sequence closes everything. -/
def Balanced (l : List Command) : Prop :=
  (∀ k, k ≤ l.length → 0 ≤ depth l k) ∧ depth l l.length = 0

/-- `j` is the syntactic matching loop-close of the loop-open at `i`
under the last-opened, first-closed discipline: the depth stays strictly
above the depth at `i` throughout `(i, j]` and returns to it right after
`j`. -/
def Matches (l : List Command) (i j : Nat) : Prop :=
  i < j ∧ j < l.length ∧ isOpenB (l.getD i .PUTC) = true ∧
    isCloseB (l.getD j .PUTC) = true ∧ depth l (j + 1) = depth l i ∧
    ∀ k, k ≤ j → i < k → depth l i < depth l k

instance (l : List Command) : Decidable (Balanced l) := by
  unfold Balanced; infer_instance

instance (l : List Command) (i j : Nat) : Decidable (Matches l i j) := by
  unfold Matches; infer_instance

theorem open_not_close (c : Command) (h : isOpenB c = true) : isCloseB c = false := by
  cases c <;> simp_all [isOpenB, isCloseB]

theorem depth_zero (l : List Command) : depth l 0 = 0 := by
  simp [depth]

theorem depth_succ (l : List Command) (i : Nat) (hi : i < l.length) :
    depth l (i + 1) =
      depth l i + (if isOpenB (l.getD i .PUTC) = true then 1 else 0)
        - (if isCloseB (l.getD i .PUTC) = true then 1 else 0) := by
  have hts : l.take (i + 1) = l.take i ++ [l[i]] := by
    rw [List.take_succ, List.getElem?_eq_getElem hi]
    rfl
  unfold depth
  rw [List.getD_eq_getElem l _ hi, hts, List.countP_append, List.countP_append]
  cases ho : isOpenB l[i] <;> cases hc : isCloseB l[i] <;>
    simp only [List.countP_cons, List.countP_nil, ho, hc, if_true, if_false,
      reduceIte, Nat.zero_add] <;> push_cast <;> ring

theorem depth_succ_open (l : List Command) (i : Nat) (hi : i < l.length)
    (ho : isOpenB (l.getD i .PUTC) = true) : depth l (i + 1) = depth l i + 1 := by
  rw [depth_succ l i hi, ho, open_not_close _ ho]
  simp

theorem depth_succ_close (l : List Command) (i : Nat) (hi : i < l.length)
    (hc : isCloseB (l.getD i .PUTC) = true) : depth l (i + 1) = depth l i - 1 := by
  have ho : isOpenB (l.getD i .PUTC) = false := by
    cases h : l.getD i .PUTC <;> simp_all [isOpenB, isCloseB]
  rw [depth_succ l i hi, ho, hc]
  simp

theorem depth_succ_other (l : List Command) (i : Nat) (hi : i < l.length)
    (ho : isOpenB (l.getD i .PUTC) = false)
    (hc : isCloseB (l.getD i .PUTC) = false) : depth l (i + 1) = depth l i := by
  rw [depth_succ l i hi, ho, hc]
  simp

/--
The invariant tying the `loop_starts` stack (most recent first) at index
`i` to the depth function: each pending open sits one depth level below
the next, the depth never returns to a pending open's level while it is
pending, and an empty stack means depth zero.
-/
def StackOk (l : List Command) : Nat → List Nat → Prop
  | i, [] => depth l i = 0
  | i, s :: ss => s < i ∧ isOpenB (l.getD s .PUTC) = true ∧
      (∀ k, k ≤ i → s < k → depth l s < depth l k) ∧
      depth l i = depth l s + 1 ∧ StackOk l s ss

theorem StackOk_step (l : List Command) (i : Nat) (stack : List Nat)
    (h : StackOk l i stack) (heq : depth l (i + 1) = depth l i) :
    StackOk l (i + 1) stack := by
  cases stack with
  | nil => unfold StackOk at h ⊢; omega
  | cons s ss =>
      obtain ⟨hsi, hopen, hall, hdep, hss⟩ := h
      refine ⟨by omega, hopen, ?_, by omega, hss⟩
      intro k hk hsk
      rcases Nat.lt_or_ge k (i + 1) with hk' | hk'
      · exact hall k (by omega) hsk
      · have : k = i + 1 := by omega
        subst this
        rw [heq]
        exact hall i (by omega) (by omega)

theorem StackOk_push (l : List Command) (i : Nat) (stack : List Nat)
    (h : StackOk l i stack) (hopen : isOpenB (l.getD i .PUTC) = true)
    (heq : depth l (i + 1) = depth l i + 1) :
    StackOk l (i + 1) (i :: stack) := by
  refine ⟨by omega, hopen, ?_, by omega, h⟩
  intro k hk hik
  have : k = i + 1 := by omega
  subst this
  omega

theorem StackOk_pop (l : List Command) (i s : Nat) (ss : List Nat)
    (h : StackOk l i (s :: ss)) (heq : depth l (i + 1) = depth l i - 1) :
    StackOk l (i + 1) ss ∧ depth l (i + 1) = depth l s := by
  obtain ⟨hsi, hopen, hall, hdep, hss⟩ := h
  have hds : depth l (i + 1) = depth l s := by omega
  refine ⟨?_, hds⟩
  cases ss with
  | nil =>
      unfold StackOk at hss ⊢
      omega
  | cons s1 ss1 =>
      obtain ⟨hs1s, hopen1, hall1, hdep1, hss1⟩ := hss
      refine ⟨by omega, hopen1, ?_, by omega, hss1⟩
      intro k hk hs1k
      rcases Nat.lt_or_ge k (s + 1) with hk' | hk'
      · exact hall1 k (by omega) hs1k
      · rcases Nat.lt_or_ge k (i + 1) with hk2 | hk2
        · have := hall k (by omega) (by omega)
          omega
        · have : k = i + 1 := by omega
          subst this
          omega

theorem StackOk_pop_matches (l : List Command) (i s : Nat) (ss : List Nat)
    (hi : i < l.length) (hclose : isCloseB (l.getD i .PUTC) = true)
    (h : StackOk l i (s :: ss)) : Matches l s i := by
  obtain ⟨hsi, hopen, hall, hdep, hss⟩ := h
  have hstep := depth_succ_close l i hi hclose
  exact ⟨hsi, hi, hopen, hclose, by omega, fun k hk hsk => hall k hk hsk⟩

theorem StackOk_nonempty_of_depth_pos (l : List Command) (i : Nat)
    (stack : List Nat) (h : StackOk l i stack) (hpos : 0 < depth l i) :
    stack ≠ [] := by
  intro hemp
  subst hemp
  unfold StackOk at h
  omega

theorem StackOk_depth_pos (l : List Command) (i s : Nat) (ss : List Nat)
    (h : StackOk l i (s :: ss)) (hpre : ∀ k, k ≤ i → 0 ≤ depth l k) :
    0 < depth l i := by
  obtain ⟨hsi, _, _, hdep, _⟩ := h
  have := hpre s (by omega)
  omega

/-! ### find_loops resolves balanced sequences correctly (claim C4) -/

theorem getD_set_self (L : List Command) (i : Nat) (v : Command)
    (h : i < L.length) : (L.set i v).getD i .PUTC = v := by
  rw [List.getD_eq_getElem _ _ (by simpa using h)]
  exact List.getElem_set_self (by simpa using h)

theorem getD_set_ne (L : List Command) (i j : Nat) (v : Command)
    (hne : i ≠ j) : (L.set i v).getD j .PUTC = L.getD j .PUTC := by
  rw [List.getD_eq_getElem?_getD, List.getD_eq_getElem?_getD,
    List.getElem?_set_ne hne]

theorem isOpenB_iff (c : Command) : isOpenB c = true ↔ ∃ e, c = .LOOPSTART e := by
  cases c <;> simp [isOpenB]

theorem isCloseB_iff (c : Command) : isCloseB c = true ↔ ∃ st, c = .LOOPEND st := by
  cases c <;> simp [isCloseB]

theorem flGo_cons_other (c : Command) (ho : isOpenB c = false)
    (hc : isCloseB c = false) (rest cur : List Command) (i : Nat)
    (stack : List Nat) :
    flGo (c :: rest) cur i stack = flGo rest cur (i + 1) stack := by
  cases c <;> simp_all [flGo, isOpenB, isCloseB]

/-- The postcondition of a successful `find_loops` on input `l`: every
loop-open points at its syntactic matching loop-close, that loop-close
points back at the loop-open, and all non-loop positions are unchanged. -/
def Resolved (l r : List Command) : Prop :=
  r.length = l.length ∧
    ∀ i, i < l.length →
      ((∀ e, l.getD i .PUTC = .LOOPSTART e →
        ∃ j, Matches l i j ∧ r.getD i .PUTC = .LOOPSTART j ∧
          r.getD j .PUTC = .LOOPEND i) ∧
      (isOpenB (l.getD i .PUTC) = false → isCloseB (l.getD i .PUTC) = false →
        r.getD i .PUTC = l.getD i .PUTC))

theorem flGo_ok_of_balanced (l : List Command) (hb : Balanced l) :
    ∀ (rest : List Command) (i : Nat) (cur : List Command) (stack : List Nat),
      rest = l.drop i → i ≤ l.length → cur.length = l.length →
      (∀ j, i ≤ j → j < l.length → cur.getD j .PUTC = l.getD j .PUTC) →
      StackOk l i stack →
      (∀ j, j < i →
        ((∀ e, l.getD j .PUTC = .LOOPSTART e → ¬ j ∈ stack →
          ∃ k, k < i ∧ Matches l j k ∧ cur.getD j .PUTC = .LOOPSTART k ∧
            cur.getD k .PUTC = .LOOPEND j) ∧
        (isOpenB (l.getD j .PUTC) = false → isCloseB (l.getD j .PUTC) = false →
          cur.getD j .PUTC = l.getD j .PUTC))) →
      (∀ s ∈ stack, s < i) →
      ∃ r, flGo rest cur i stack = .ok r ∧ Resolved l r := by
  intro rest
  induction rest with
  | nil =>
      intro i cur stack hrest hi hlen hsuffix hstack hmatched hbound
      have hi_eq : i = l.length := by
        have := List.drop_eq_nil_iff.mp hrest.symm
        omega
      have hstack_nil : stack = [] := by
        cases stack with
        | nil => rfl
        | cons s ss =>
            exfalso
            obtain ⟨hsi, _, _, hdep, _⟩ := hstack
            have h0 := hb.1 s (by omega)
            have h2 := hb.2
            rw [hi_eq] at hdep
            omega
      subst hstack_nil
      refine ⟨cur, by simp [flGo], hlen, ?_⟩
      intro j hj
      refine ⟨?_, (hmatched j (by omega)).2⟩
      intro e he
      obtain ⟨k, _, hm, h1, h2⟩ :=
        (hmatched j (by omega)).1 e he (List.not_mem_nil j)
      exact ⟨k, hm, h1, h2⟩
  | cons c rest' ih =>
      intro i cur stack hrest hi hlen hsuffix hstack hmatched hbound
      have hi_lt : i < l.length := by
        by_contra h
        have hnil : l.drop i = [] := List.drop_eq_nil_iff.mpr (by omega)
        rw [hnil] at hrest
        simp at hrest
      rw [List.drop_eq_getElem_cons hi_lt] at hrest
      have hc_eq : c = l[i] := by injection hrest
      have hrest' : rest' = l.drop (i + 1) := by injection hrest
      have hgetD : l.getD i .PUTC = l[i] := List.getD_eq_getElem l _ hi_lt
      by_cases hop : isOpenB c = true
      · -- loop open: push
        obtain ⟨e, hce⟩ := (isOpenB_iff c).mp hop
        have hopen : isOpenB (l.getD i .PUTC) = true := by
          rw [hgetD, ← hc_eq]; exact hop
        have hstep := depth_succ_open l i hi_lt hopen
        subst hce
        show ∃ r, flGo rest' cur (i + 1) (i :: stack) = .ok r ∧ Resolved l r
        refine ih (i + 1) cur (i :: stack) hrest' (by omega) hlen
          (fun j hj hjl => hsuffix j (by omega) hjl)
          (StackOk_push l i stack hstack hopen hstep) ?_ ?_
        · intro j hj
          rcases Nat.lt_or_ge j i with hj' | hj'
          · refine ⟨?_, (hmatched j hj').2⟩
            intro e' he' hnot
            obtain ⟨k, hk, hm, h1, h2⟩ := (hmatched j hj').1 e' he'
              (fun hmem => hnot (List.mem_cons_of_mem _ hmem))
            exact ⟨k, by omega, hm, h1, h2⟩
          · have hj_eq : j = i := by omega
            subst hj_eq
            constructor
            · intro e' he' hnot
              exact absurd (List.mem_cons_self j stack) hnot
            · intro hopen' _
              rw [hopen] at hopen'
              exact absurd hopen'.symm Bool.false_ne_true
        · intro s hs
          rcases List.mem_cons.mp hs with h | h
          · omega
          · have := hbound s h; omega
      · by_cases hcl : isCloseB c = true
        · -- loop close: pop
          obtain ⟨st, hcst⟩ := (isCloseB_iff c).mp hcl
          have hclose : isCloseB (l.getD i .PUTC) = true := by
            rw [hgetD, ← hc_eq]; exact hcl
          have hstep := depth_succ_close l i hi_lt hclose
          have hdpos : 0 < depth l i := by
            have h1 := hb.1 (i + 1) (by omega)
            omega
          cases stack with
          | nil =>
              exfalso
              unfold StackOk at hstack
              omega
          | cons s ss =>
              obtain ⟨hpop_ok, hpop_depth⟩ := StackOk_pop l i s ss hstack hstep
              have hmatch_si : Matches l s i :=
                StackOk_pop_matches l i s ss hi_lt hclose hstack
              obtain ⟨hsi, hsopen, _, _, _⟩ := hstack
              subst hcst
              show ∃ r,
                flGo rest' ((cur.set s (.LOOPSTART i)).set i (.LOOPEND s))
                  (i + 1) ss = .ok r ∧ Resolved l r
              have hs_lt_len : s < cur.length := by rw [hlen]; omega
              have hi_lt_len : i < cur.length := by rw [hlen]; exact hi_lt
              have hcur'_s :
                  ((cur.set s (.LOOPSTART i)).set i (.LOOPEND s)).getD s .PUTC =
                    .LOOPSTART i := by
                rw [getD_set_ne _ i s _ (by omega)]
                exact getD_set_self cur s _ hs_lt_len
              have hcur'_i :
                  ((cur.set s (.LOOPSTART i)).set i (.LOOPEND s)).getD i .PUTC =
                    .LOOPEND s :=
                getD_set_self _ i _ (by simpa using hi_lt_len)
              have hcur'_other : ∀ j, j ≠ s → j ≠ i →
                  ((cur.set s (.LOOPSTART i)).set i (.LOOPEND s)).getD j .PUTC =
                    cur.getD j .PUTC := by
                intro j h1 h2
                rw [getD_set_ne _ i j _ (fun h => h2 h.symm),
                  getD_set_ne _ s j _ (fun h => h1 h.symm)]
              refine ih (i + 1) _ ss hrest' (by omega) (by simpa using hlen)
                ?_ hpop_ok ?_ ?_
              · intro j hj hjl
                rw [hcur'_other j (by omega) (by omega)]
                exact hsuffix j (by omega) hjl
              · intro j hj
                rcases Nat.lt_or_ge j i with hj' | hj'
                · by_cases hjs : j = s
                  · subst hjs
                    constructor
                    · intro e' he' _
                      exact ⟨i, by omega, hmatch_si, hcur'_s, hcur'_i⟩
                    · intro hopen' _
                      rw [hsopen] at hopen'
                      exact absurd hopen'.symm Bool.false_ne_true
                  · constructor
                    · intro e' he' hnot
                      have hnot' : ¬ j ∈ s :: ss := by
                        intro hmem
                        rcases List.mem_cons.mp hmem with h | h
                        · exact hjs h
                        · exact hnot h
                      obtain ⟨k, hk, hm, h1, h2⟩ := (hmatched j hj').1 e' he' hnot'
                      have hkclose : isCloseB (l.getD k .PUTC) = true := hm.2.2.2.1
                      have hk_ne_s : k ≠ s := by
                        intro hks
                        have hns := open_not_close _ hsopen
                        rw [hks, hns] at hkclose
                        exact Bool.false_ne_true hkclose
                      refine ⟨k, by omega, hm, ?_, ?_⟩
                      · rw [hcur'_other j hjs (by omega)]; exact h1
                      · rw [hcur'_other k hk_ne_s (by omega)]; exact h2
                    · intro ho' hc'
                      rw [hcur'_other j hjs (by omega)]
                      exact (hmatched j hj').2 ho' hc'
                · have hj_eq : j = i := by omega
                  subst hj_eq
                  constructor
                  · intro e' he' _
                    exfalso
                    rw [he'] at hclose
                    simp [isCloseB] at hclose
                  · intro _ hc'
                    exfalso
                    rw [hclose] at hc'
                    simp at hc'
              · intro s' hs'
                have := hbound s' (List.mem_cons_of_mem _ hs')
                omega
        · -- neither open nor close
          have hoB : isOpenB (l.getD i .PUTC) = false := by
            rw [hgetD, ← hc_eq]
            exact Bool.of_not_eq_true hop
          have hcB : isCloseB (l.getD i .PUTC) = false := by
            rw [hgetD, ← hc_eq]
            exact Bool.of_not_eq_true hcl
          have hstep := depth_succ_other l i hi_lt hoB hcB
          rw [flGo_cons_other c (Bool.of_not_eq_true hop)
            (Bool.of_not_eq_true hcl) rest' cur i stack]
          refine ih (i + 1) cur stack hrest' (by omega) hlen
            (fun j hj hjl => hsuffix j (by omega) hjl)
            (StackOk_step l i stack hstack hstep) ?_
            (fun s hs => by have := hbound s hs; omega)
          intro j hj
          rcases Nat.lt_or_ge j i with hj' | hj'
          · refine ⟨?_, (hmatched j hj').2⟩
            intro e' he' hnot
            obtain ⟨k, hk, hm, h1, h2⟩ := (hmatched j hj').1 e' he' hnot
            exact ⟨k, by omega, hm, h1, h2⟩
          · have hj_eq : j = i := by omega
            subst hj_eq
            constructor
            · intro e' he' _
              exfalso
              rw [he'] at hoB
              simp [isOpenB] at hoB
            · intro _ _
              exact hsuffix j (by omega) hi_lt

/-- Helper: `find_loops` succeeds on balanced input with the resolved
postcondition. -/
theorem find_loops_ok_resolved (l : List Command) (hb : Balanced l) :
    ∃ r, find_loops l = .ok r ∧ Resolved l r := by
  refine flGo_ok_of_balanced l hb l 0 l [] (List.drop_zero l).symm
    (by omega) rfl (fun j _ _ => rfl) (depth_zero l) ?_ ?_
  · intro j hj
    exact absurd hj (Nat.not_lt_zero j)
  · intro s hs
    exact absurd hs (List.not_mem_nil s)

/--
C4: on every instruction sequence with balanced loop brackets,
`find_loops` succeeds, every `LOOPSTART`'s target is the index of its
syntactic matching `LOOPEND` under the last-opened, first-closed
discipline, that `LOOPEND`'s target is the `LOOPSTART`'s index, and all
non-loop instructions are unchanged.
-/
theorem find_loops_balanced_resolves (l : List Command) (hb : Balanced l) :
    ∃ r, find_loops l = .ok r ∧ Resolved l r :=
  find_loops_ok_resolved l hb

/-- Witness for `find_loops_balanced_resolves` at the concrete program
`[>[-]]` (a nested balanced sequence). -/
theorem find_loops_balanced_resolves_witness :
    ∃ r, find_loops [.LOOPSTART 0, .INCPTR 1, .LOOPSTART 0, .DECVAL 1,
        .LOOPEND 0, .LOOPEND 0] = .ok r ∧
      Resolved [.LOOPSTART 0, .INCPTR 1, .LOOPSTART 0, .DECVAL 1,
        .LOOPEND 0, .LOOPEND 0] r :=
  find_loops_balanced_resolves _ (by decide)

/-! ### find_loops error characterization (claim C5) -/

theorem flGo_error_close (l : List Command) :
    ∀ (rest : List Command) (i : Nat) (cur : List Command) (stack : List Nat),
      rest = l.drop i → i ≤ l.length →
      (∀ k, k ≤ i → 0 ≤ depth l k) →
      StackOk l i stack →
      (∃ j, i ≤ j ∧ j < l.length ∧ isCloseB (l.getD j .PUTC) = true ∧
        depth l j ≤ 0) →
      flGo rest cur i stack =
        .error "Cannot find opening bracket for closing bracket" := by
  intro rest
  induction rest with
  | nil =>
      intro i cur stack hrest hi hpre hstack hbad
      exfalso
      have hi_eq : i = l.length := by
        have := List.drop_eq_nil_iff.mp hrest.symm
        omega
      obtain ⟨j, h1, h2, _, _⟩ := hbad
      omega
  | cons c rest' ih =>
      intro i cur stack hrest hi hpre hstack hbad
      have hi_lt : i < l.length := by
        by_contra h
        have hnil : l.drop i = [] := List.drop_eq_nil_iff.mpr (by omega)
        rw [hnil] at hrest
        simp at hrest
      rw [List.drop_eq_getElem_cons hi_lt] at hrest
      have hc_eq : c = l[i] := by injection hrest
      have hrest' : rest' = l.drop (i + 1) := by injection hrest
      have hgetD : l.getD i .PUTC = l[i] := List.getD_eq_getElem l _ hi_lt
      by_cases hop : isOpenB c = true
      · obtain ⟨e, hce⟩ := (isOpenB_iff c).mp hop
        have hopen : isOpenB (l.getD i .PUTC) = true := by
          rw [hgetD, ← hc_eq]; exact hop
        have hstep := depth_succ_open l i hi_lt hopen
        subst hce
        show flGo rest' cur (i + 1) (i :: stack) = _
        refine ih (i + 1) cur (i :: stack) hrest' (by omega) ?_
          (StackOk_push l i stack hstack hopen hstep) ?_
        · intro k hk
          rcases Nat.lt_or_ge k (i + 1) with hk' | hk'
          · exact hpre k (by omega)
          · have : k = i + 1 := by omega
            subst this
            have := hpre i (by omega)
            omega
        · obtain ⟨j, h1, h2, h3, h4⟩ := hbad
          have hjne : j ≠ i := by
            intro hji
            rw [hji, open_not_close _ hopen] at h3
            exact Bool.false_ne_true h3
          exact ⟨j, by omega, h2, h3, h4⟩
      · by_cases hcl : isCloseB c = true
        · obtain ⟨st, hcst⟩ := (isCloseB_iff c).mp hcl
          have hclose : isCloseB (l.getD i .PUTC) = true := by
            rw [hgetD, ← hc_eq]; exact hcl
          have hstep := depth_succ_close l i hi_lt hclose
          subst hcst
          cases stack with
          | nil => rfl
          | cons s ss =>
              obtain ⟨hpop_ok, _⟩ := StackOk_pop l i s ss hstack hstep
              have hdpos : 0 < depth l i := StackOk_depth_pos l i s ss hstack hpre
              show flGo rest' _ (i + 1) ss = _
              refine ih (i + 1) _ ss hrest' (by omega) ?_ hpop_ok ?_
              · intro k hk
                rcases Nat.lt_or_ge k (i + 1) with hk' | hk'
                · exact hpre k (by omega)
                · have : k = i + 1 := by omega
                  subst this
                  omega
              · obtain ⟨j, h1, h2, h3, h4⟩ := hbad
                have hjne : j ≠ i := by
                  intro hji
                  rw [hji] at h4
                  omega
                exact ⟨j, by omega, h2, h3, h4⟩
        · have hoB : isOpenB (l.getD i .PUTC) = false := by
            rw [hgetD, ← hc_eq]; exact Bool.of_not_eq_true hop
          have hcB : isCloseB (l.getD i .PUTC) = false := by
            rw [hgetD, ← hc_eq]; exact Bool.of_not_eq_true hcl
          have hstep := depth_succ_other l i hi_lt hoB hcB
          rw [flGo_cons_other c (Bool.of_not_eq_true hop)
            (Bool.of_not_eq_true hcl) rest' cur i stack]
          refine ih (i + 1) cur stack hrest' (by omega) ?_
            (StackOk_step l i stack hstack hstep) ?_
          · intro k hk
            rcases Nat.lt_or_ge k (i + 1) with hk' | hk'
            · exact hpre k (by omega)
            · have : k = i + 1 := by omega
              subst this
              have := hpre i (by omega)
              omega
          · obtain ⟨j, h1, h2, h3, h4⟩ := hbad
            have hjne : j ≠ i := by
              intro hji
              rw [hji, hcB] at h3
              exact Bool.false_ne_true h3
            exact ⟨j, by omega, h2, h3, h4⟩

theorem flGo_error_open (l : List Command) :
    ∀ (rest : List Command) (i : Nat) (cur : List Command) (stack : List Nat),
      rest = l.drop i → i ≤ l.length →
      (∀ k, k ≤ i → 0 ≤ depth l k) →
      StackOk l i stack →
      (∀ j, i ≤ j → j < l.length → isCloseB (l.getD j .PUTC) = true →
        0 < depth l j) →
      0 < depth l l.length →
      flGo rest cur i stack =
        .error "More opening than closing loop brackets" := by
  intro rest
  induction rest with
  | nil =>
      intro i cur stack hrest hi hpre hstack hgood hpos
      have hi_eq : i = l.length := by
        have := List.drop_eq_nil_iff.mp hrest.symm
        omega
      cases stack with
      | nil =>
          exfalso
          unfold StackOk at hstack
          rw [hi_eq] at hstack
          omega
      | cons s ss => rfl
  | cons c rest' ih =>
      intro i cur stack hrest hi hpre hstack hgood hpos
      have hi_lt : i < l.length := by
        by_contra h
        have hnil : l.drop i = [] := List.drop_eq_nil_iff.mpr (by omega)
        rw [hnil] at hrest
        simp at hrest
      rw [List.drop_eq_getElem_cons hi_lt] at hrest
      have hc_eq : c = l[i] := by injection hrest
      have hrest' : rest' = l.drop (i + 1) := by injection hrest
      have hgetD : l.getD i .PUTC = l[i] := List.getD_eq_getElem l _ hi_lt
      by_cases hop : isOpenB c = true
      · obtain ⟨e, hce⟩ := (isOpenB_iff c).mp hop
        have hopen : isOpenB (l.getD i .PUTC) = true := by
          rw [hgetD, ← hc_eq]; exact hop
        have hstep := depth_succ_open l i hi_lt hopen
        subst hce
        show flGo rest' cur (i + 1) (i :: stack) = _
        refine ih (i + 1) cur (i :: stack) hrest' (by omega) ?_
          (StackOk_push l i stack hstack hopen hstep)
          (fun j hj hjl hjc => hgood j (by omega) hjl hjc) hpos
        intro k hk
        rcases Nat.lt_or_ge k (i + 1) with hk' | hk'
        · exact hpre k (by omega)
        · have : k = i + 1 := by omega
          subst this
          have := hpre i (by omega)
          omega
      · by_cases hcl : isCloseB c = true
        · obtain ⟨st, hcst⟩ := (isCloseB_iff c).mp hcl
          have hclose : isCloseB (l.getD i .PUTC) = true := by
            rw [hgetD, ← hc_eq]; exact hcl
          have hstep := depth_succ_close l i hi_lt hclose
          have hdpos : 0 < depth l i := hgood i (by omega) hi_lt hclose
          subst hcst
          cases stack with
          | nil =>
              exfalso
              unfold StackOk at hstack
              omega
          | cons s ss =>
              obtain ⟨hpop_ok, _⟩ := StackOk_pop l i s ss hstack hstep
              show flGo rest' _ (i + 1) ss = _
              refine ih (i + 1) _ ss hrest' (by omega) ?_ hpop_ok
                (fun j hj hjl hjc => hgood j (by omega) hjl hjc) hpos
              intro k hk
              rcases Nat.lt_or_ge k (i + 1) with hk' | hk'
              · exact hpre k (by omega)
              · have : k = i + 1 := by omega
                subst this
                omega
        · have hoB : isOpenB (l.getD i .PUTC) = false := by
            rw [hgetD, ← hc_eq]; exact Bool.of_not_eq_true hop
          have hcB : isCloseB (l.getD i .PUTC) = false := by
            rw [hgetD, ← hc_eq]; exact Bool.of_not_eq_true hcl
          have hstep := depth_succ_other l i hi_lt hoB hcB
          rw [flGo_cons_other c (Bool.of_not_eq_true hop)
            (Bool.of_not_eq_true hcl) rest' cur i stack]
          refine ih (i + 1) cur stack hrest' (by omega) ?_
            (StackOk_step l i stack hstack hstep)
            (fun j hj hjl hjc => hgood j (by omega) hjl hjc) hpos
          intro k hk
          rcases Nat.lt_or_ge k (i + 1) with hk' | hk'
          · exact hpre k (by omega)
          · have : k = i + 1 := by omega
            subst this
            have := hpre i (by omega)
            omega

theorem prefix_nonneg_of_no_bad_close (l : List Command)
    (hA : ¬ ∃ j, j < l.length ∧ isCloseB (l.getD j .PUTC) = true ∧
      depth l j ≤ 0) :
    ∀ k, k ≤ l.length → 0 ≤ depth l k := by
  intro k
  induction k with
  | zero => intro _; rw [depth_zero]
  | succ k ihk =>
      intro hk
      have hk' : k < l.length := by omega
      have h0 : 0 ≤ depth l k := ihk (by omega)
      by_cases hc : isCloseB (l.getD k .PUTC) = true
      · have hkpos : 0 < depth l k := by
          by_contra hle
          exact hA ⟨k, hk', hc, by omega⟩
        rw [depth_succ_close l k hk' hc]
        omega
      · rw [depth_succ l k hk', if_neg hc]
        by_cases ho : isOpenB (l.getD k .PUTC) = true
        · rw [if_pos ho]; omega
        · rw [if_neg ho]; omega

/--
C5: `find_loops` fails exactly on unbalanced inputs.  It reports the
unmatched-closing-bracket error iff some loop-close is reached with no
loop-open pending (some close sits at a prefix whose depth is already
zero or below); otherwise it reports the unmatched-opening-bracket error
iff opens remain pending after the pass (the final depth is positive);
and it succeeds exactly on balanced sequences.
-/
theorem find_loops_error_characterization (l : List Command) :
    (find_loops l = .error "Cannot find opening bracket for closing bracket" ↔
      ∃ j, j < l.length ∧ isCloseB (l.getD j .PUTC) = true ∧ depth l j ≤ 0) ∧
    (find_loops l = .error "More opening than closing loop brackets" ↔
      ¬ (∃ j, j < l.length ∧ isCloseB (l.getD j .PUTC) = true ∧
          depth l j ≤ 0) ∧ 0 < depth l l.length) ∧
    ((∃ r, find_loops l = .ok r) ↔ Balanced l) := by
  have hpre0 : ∀ k, k ≤ 0 → 0 ≤ depth l k := by
    intro k hk
    have : k = 0 := by omega
    subst this
    rw [depth_zero]
  by_cases hA : ∃ j, j < l.length ∧ isCloseB (l.getD j .PUTC) = true ∧
      depth l j ≤ 0
  · have hres : find_loops l =
        .error "Cannot find opening bracket for closing bracket" := by
      refine flGo_error_close l l 0 l [] (List.drop_zero l).symm (by omega)
        hpre0 (depth_zero l) ?_
      obtain ⟨j, h1, h2, h3⟩ := hA
      exact ⟨j, by omega, h1, h2, h3⟩
    refine ⟨⟨fun _ => hA, fun _ => hres⟩, ⟨?_, ?_⟩, ⟨?_, ?_⟩⟩
    · intro h
      rw [hres] at h
      exfalso
      injection h with hmsg
      exact absurd hmsg (by decide)
    · rintro ⟨hnA, _⟩
      exact absurd hA hnA
    · rintro ⟨r, hr⟩
      rw [hres] at hr
      exact absurd hr (by simp)
    · intro hb
      exfalso
      obtain ⟨j, hj, hc, hd⟩ := hA
      have h1 := hb.1 j (by omega)
      have h2 := hb.1 (j + 1) (by omega)
      rw [depth_succ_close l j hj hc] at h2
      omega
  · by_cases hpos : 0 < depth l l.length
    · have hres : find_loops l =
          .error "More opening than closing loop brackets" := by
        refine flGo_error_open l l 0 l [] (List.drop_zero l).symm (by omega)
          hpre0 (depth_zero l) ?_ hpos
        intro j _ hjl hjc
        by_contra hle
        exact hA ⟨j, hjl, hjc, by omega⟩
      refine ⟨⟨?_, fun hA' => absurd hA' hA⟩,
        ⟨fun _ => ⟨hA, hpos⟩, fun _ => hres⟩, ⟨?_, ?_⟩⟩
      · intro h
        rw [hres] at h
        exfalso
        injection h with hmsg
        exact absurd hmsg (by decide)
      · rintro ⟨r, hr⟩
        rw [hres] at hr
        exact absurd hr (by simp)
      · intro hb
        exfalso
        have := hb.2
        omega
    · have hnonneg := prefix_nonneg_of_no_bad_close l hA
      have hzero : depth l l.length = 0 := by
        have := hnonneg l.length le_rfl
        omega
      have hbal : Balanced l := ⟨hnonneg, hzero⟩
      obtain ⟨r, hr, _⟩ := find_loops_ok_resolved l hbal
      refine ⟨⟨?_, fun hA' => absurd hA' hA⟩, ⟨?_, ?_⟩,
        ⟨fun _ => hbal, fun _ => ⟨r, hr⟩⟩⟩
      · intro h
        rw [hr] at h
        exact absurd h (by simp)
      · intro h
        rw [hr] at h
        exact absurd h (by simp)
      · rintro ⟨hnA, hp⟩
        omega

/-! ### The execution engine (claims C8, C9, C10) -/

/-- One read outcome offered by the input source: a byte, or a read
error other than end-of-stream.  An exhausted source is the empty list
(each further `read_exact` reports `UnexpectedEof`, which the code
treats as a no-op). -/
inductive InByte where
  | byte (b : Nat)
  | fail
deriving DecidableEq, Repr

/-- Execution state of `Program::run`: the sparse memory as a total map
with default 0 (the `HashMap` with `unwrap_or(&0)` reads), the tape
pointer `pos` (an `isize`, kept exact with explicit range checks), the
program counter `pc` (a `usize`), the remaining input outcomes and the
bytes written so far. -/
structure EState where
  mem : Int → Nat
  pos : Int
  pc : Nat
  inp : List InByte
  out : List Nat

/-- Result of one iteration of the interpreter loop. -/
inductive StepRes where
  | cont (s : EState)
  | halt (s : EState)
  | err (msg : String)

/-- Result of a fuelled run of the loop. -/
inductive RunRes where
  | ok (s : EState)
  | err (msg : String)
  | fuelOut

def memWrite (m : Int → Nat) (a : Int) (v : Nat) : Int → Nat :=
  fun x => if x = a then v else m x

def isizeMin : Int := -(2 ^ 63)

def isizeMax : Int := 2 ^ 63 - 1

def usizeMax : Nat := 2 ^ 64 - 1

/-- Whether an exact integer is representable as an `isize`; Rust's
`checked_add`/`checked_sub` return `None` exactly when the exact result
falls outside this range. -/
def inIsize (x : Int) : Prop := isizeMin ≤ x ∧ x ≤ isizeMax

instance (x : Int) : Decidable (inIsize x) := by unfold inIsize; infer_instance

/-- The `pc = pc.checked_add(1).ok_or("PC overflow")?` statement that
follows every instruction except `LOOPEND` (whose arm ends in
`continue`). -/
def incPC (s : EState) : StepRes :=
  if s.pc + 1 ≤ usizeMax then .cont { s with pc := s.pc + 1 }
  else .err "PC overflow"

/--
One iteration of the `loop` in `Program::run`: halt when `pc` is past
the end, otherwise dispatch on `commands[pc]` and then increment the
program counter (except after `LOOPEND`, which jumps and `continue`s).
The output sink is modelled as always accepting the written byte.
-/
def step (prog : List Command) (s : EState) : StepRes :=
  match prog[s.pc]? with
  | none => .halt s
  | some c =>
      match c with
      | .INCPTR amount =>
          if inIsize (s.pos + amount) then incPC { s with pos := s.pos + amount }
          else .err "Pointer overflow"
      | .DECPTR amount =>
          if inIsize (s.pos - amount) then incPC { s with pos := s.pos - amount }
          else .err "Pointer underflow"
      | .INCVAL amount =>
          incPC { s with mem := memWrite s.mem s.pos ((s.mem s.pos + amount) % 256) }
      | .DECVAL amount =>
          incPC { s with
            mem := memWrite s.mem s.pos ((s.mem s.pos + 256 - amount % 256) % 256) }
      | .PUTC => incPC { s with out := s.out ++ [s.mem s.pos] }
      | .GETC =>
          match s.inp with
          | [] => incPC s
          | .byte b :: rest => incPC { s with mem := memWrite s.mem s.pos b, inp := rest }
          | .fail :: _ => .err "Reading from input failed"
      | .LOOPSTART e =>
          if s.mem s.pos = 0 then incPC { s with pc := e } else incPC s
      | .LOOPEND start => .cont { s with pc := start }

/-- The interpreter loop with fuel (the Rust loop runs unboundedly; every
terminating run is reproduced by a large enough fuel). -/
def runFuel (prog : List Command) : Nat → EState → RunRes
  | 0, _ => .fuelOut
  | n + 1, s =>
      match step prog s with
      | .halt s' => .ok s'
      | .err m => .err m
      | .cont s' => runFuel prog n s'

theorem runFuel_err (prog : List Command) (s : EState) (msg : String) (n : Nat)
    (h : step prog s = .err msg) : runFuel prog (n + 1) s = .err msg := by
  simp only [runFuel, h]

theorem incPC_ok (s : EState) (h : s.pc + 1 ≤ usizeMax) :
    incPC s = .cont { s with pc := s.pc + 1 } := if_pos h

theorem incPC_overflow (s : EState) (h : ¬ s.pc + 1 ≤ usizeMax) :
    incPC s = .err "PC overflow" := if_neg h

theorem step_INCPTR (prog : List Command) (s : EState) (a : Int)
    (hget : prog[s.pc]? = some (.INCPTR a)) :
    step prog s = if inIsize (s.pos + a) then incPC { s with pos := s.pos + a }
      else .err "Pointer overflow" := by
  simp only [step, hget]

theorem step_DECPTR (prog : List Command) (s : EState) (a : Int)
    (hget : prog[s.pc]? = some (.DECPTR a)) :
    step prog s = if inIsize (s.pos - a) then incPC { s with pos := s.pos - a }
      else .err "Pointer underflow" := by
  simp only [step, hget]

theorem step_INCVAL (prog : List Command) (s : EState) (a : Nat)
    (hget : prog[s.pc]? = some (.INCVAL a)) :
    step prog s = incPC { s with mem := memWrite s.mem s.pos ((s.mem s.pos + a) % 256) } := by
  simp only [step, hget]

theorem step_DECVAL (prog : List Command) (s : EState) (a : Nat)
    (hget : prog[s.pc]? = some (.DECVAL a)) :
    step prog s = incPC { s with
      mem := memWrite s.mem s.pos ((s.mem s.pos + 256 - a % 256) % 256) } := by
  simp only [step, hget]

theorem step_PUTC (prog : List Command) (s : EState)
    (hget : prog[s.pc]? = some .PUTC) :
    step prog s = incPC { s with out := s.out ++ [s.mem s.pos] } := by
  simp only [step, hget]

theorem step_GETC (prog : List Command) (s : EState)
    (hget : prog[s.pc]? = some .GETC) :
    step prog s = match s.inp with
      | [] => incPC s
      | .byte b :: rest => incPC { s with mem := memWrite s.mem s.pos b, inp := rest }
      | .fail :: _ => .err "Reading from input failed" := by
  simp only [step, hget]

theorem step_LOOPSTART (prog : List Command) (s : EState) (e : Nat)
    (hget : prog[s.pc]? = some (.LOOPSTART e)) :
    step prog s = if s.mem s.pos = 0 then incPC { s with pc := e }
      else incPC s := by
  simp only [step, hget]

theorem step_LOOPEND (prog : List Command) (s : EState) (t : Nat)
    (hget : prog[s.pc]? = some (.LOOPEND t)) :
    step prog s = .cont { s with pc := t } := by
  simp only [step, hget]

/--
C8: when the input source is exhausted, an `Input` instruction leaves
the memory (hence the current cell), the tape pointer, the input and the
output untouched and continues with the next instruction; a read failure
other than end-of-stream terminates the run with the input-read error.
The hypothesis `prog.length ≤ usizeMax` records that a Rust `Vec` cannot
hold more than `usize::MAX` elements, which rules out a program-counter
overflow on this step.
-/
theorem input_eof_and_error_semantics (prog : List Command) (s : EState)
    (h1 : s.pc < prog.length) (h2 : prog.length ≤ usizeMax)
    (hg : prog[s.pc]? = some .GETC) :
    (s.inp = [] → step prog s = .cont { s with pc := s.pc + 1 }) ∧
    (∀ rest, s.inp = .fail :: rest →
      step prog s = .err "Reading from input failed" ∧
      ∀ n, runFuel prog (n + 1) s = .err "Reading from input failed") := by
  have hpc : s.pc + 1 ≤ usizeMax := by omega
  constructor
  · intro hinp
    have hred : step prog s = incPC s := by
      rw [step_GETC prog s hg, hinp]
    rw [hred]
    exact incPC_ok s hpc
  · intro rest hinp
    have hstep : step prog s = .err "Reading from input failed" := by
      rw [step_GETC prog s hg, hinp]
    exact ⟨hstep, fun n => runFuel_err prog s _ n hstep⟩

/-- Witness for `input_eof_and_error_semantics`: a one-instruction
program `,` run on an exhausted input continues past the instruction
with the state otherwise untouched. -/
theorem input_eof_witness :
    step [Command.GETC] ⟨fun _ => 0, 0, 0, [], []⟩ =
      .cont ⟨fun _ => 0, 0, 1, [], []⟩ :=
  (input_eof_and_error_semantics [Command.GETC] ⟨fun _ => 0, 0, 0, [], []⟩
    (by decide) (by decide) rfl).1 rfl

/-! ### Pointer arithmetic, the program counter, and frame effects -/

/-- Whether the current instruction is a `LOOPEND` (the only arm that
skips the program-counter increment via `continue`). -/
def isLoopEndAt (prog : List Command) (s : EState) : Bool :=
  match prog[s.pc]? with
  | some (.LOOPEND _) => true
  | _ => false

/-- The program counter after the instruction's own effect, before the
trailing `pc += 1`: a `LOOPSTART` taken jump moves it to the target,
everything else leaves it in place. -/
def pcAfterAction (prog : List Command) (s : EState) : Nat :=
  match prog[s.pc]? with
  | some (.LOOPSTART e) => if s.mem s.pos = 0 then e else s.pc
  | _ => s.pc

/-- Whether the current instruction's own action fails (before the
trailing program-counter increment is reached). -/
def ownActionFails (prog : List Command) (s : EState) : Prop :=
  match prog[s.pc]? with
  | some (.INCPTR a) => ¬ inIsize (s.pos + a)
  | some (.DECPTR a) => ¬ inIsize (s.pos - a)
  | some .GETC => ∃ rest, s.inp = .fail :: rest
  | _ => False

theorem incPC_cont (t s' : EState) (h : incPC t = .cont s') :
    s' = { t with pc := t.pc + 1 } := by
  unfold incPC at h
  by_cases hpc : t.pc + 1 ≤ usizeMax
  · rw [if_pos hpc] at h
    injection h with h'
    exact h'.symm
  · rw [if_neg hpc] at h
    exact StepRes.noConfusion h

theorem incPC_err_iff (t : EState) :
    incPC t = .err "PC overflow" ↔ usizeMax < t.pc + 1 := by
  unfold incPC
  by_cases hpc : t.pc + 1 ≤ usizeMax
  · rw [if_pos hpc]
    exact iff_of_false (fun h => StepRes.noConfusion h) (by omega)
  · rw [if_neg hpc]
    exact iff_of_true rfl (by omega)

/--
C9: during execution a `MovePointer` instruction fails with the pointer
overflow (resp. underflow) error exactly when adding (resp. subtracting)
its amount leaves the `isize` range; after every instruction except
`LOOPEND` the program counter is one more than its post-action value
(the jump target for a taken `LOOPSTART`, the current index otherwise),
the program-counter overflow error is reported exactly when that
increment overflows the `usize` and the instruction's own action did not
already fail; and every error immediately terminates the run.
-/
theorem movePointer_and_pc_semantics (prog : List Command) (s : EState)
    (h : s.pc < prog.length) :
    (∀ a, prog[s.pc]? = some (.INCPTR a) →
      (step prog s = .err "Pointer overflow" ↔ ¬ inIsize (s.pos + a))) ∧
    (∀ a, prog[s.pc]? = some (.DECPTR a) →
      (step prog s = .err "Pointer underflow" ↔ ¬ inIsize (s.pos - a))) ∧
    (∀ s', step prog s = .cont s' → isLoopEndAt prog s = false →
      s'.pc = pcAfterAction prog s + 1) ∧
    (step prog s = .err "PC overflow" ↔
      (isLoopEndAt prog s = false ∧ ¬ ownActionFails prog s ∧
        usizeMax < pcAfterAction prog s + 1)) ∧
    (∀ msg n, step prog s = .err msg → runFuel prog (n + 1) s = .err msg) := by
  have hget : prog[s.pc]? = some prog[s.pc] := List.getElem?_eq_getElem h
  refine ⟨?_, ?_, ?_, ?_, fun msg n hmsg => runFuel_err prog s msg n hmsg⟩
  · intro a ha
    rw [step_INCPTR prog s a ha]
    by_cases hin : inIsize (s.pos + a)
    · rw [if_pos hin]
      refine iff_of_false ?_ (fun hnin => absurd hin hnin)
      intro hstep
      unfold incPC at hstep
      by_cases hpc : s.pc + 1 ≤ usizeMax
      · rw [if_pos hpc] at hstep
        exact StepRes.noConfusion hstep
      · rw [if_neg hpc] at hstep
        injection hstep with hmsg
        exact absurd hmsg (by decide)
    · rw [if_neg hin]
      exact iff_of_true rfl hin
  · intro a ha
    rw [step_DECPTR prog s a ha]
    by_cases hin : inIsize (s.pos - a)
    · rw [if_pos hin]
      refine iff_of_false ?_ (fun hnin => absurd hin hnin)
      intro hstep
      unfold incPC at hstep
      by_cases hpc : s.pc + 1 ≤ usizeMax
      · rw [if_pos hpc] at hstep
        exact StepRes.noConfusion hstep
      · rw [if_neg hpc] at hstep
        injection hstep with hmsg
        exact absurd hmsg (by decide)
    · rw [if_neg hin]
      exact iff_of_true rfl hin
  · intro s' hstep hle
    cases hc : prog[s.pc] with
    | INCPTR a =>
        rw [hc] at hget
        rw [step_INCPTR prog s a hget] at hstep
        by_cases hin : inIsize (s.pos + a)
        · rw [if_pos hin] at hstep
          simp [pcAfterAction, hget, incPC_cont _ _ hstep]
        · rw [if_neg hin] at hstep
          exact StepRes.noConfusion hstep
    | DECPTR a =>
        rw [hc] at hget
        rw [step_DECPTR prog s a hget] at hstep
        by_cases hin : inIsize (s.pos - a)
        · rw [if_pos hin] at hstep
          simp [pcAfterAction, hget, incPC_cont _ _ hstep]
        · rw [if_neg hin] at hstep
          exact StepRes.noConfusion hstep
    | INCVAL a =>
        rw [hc] at hget
        rw [step_INCVAL prog s a hget] at hstep
        simp [pcAfterAction, hget, incPC_cont _ _ hstep]
    | DECVAL a =>
        rw [hc] at hget
        rw [step_DECVAL prog s a hget] at hstep
        simp [pcAfterAction, hget, incPC_cont _ _ hstep]
    | PUTC =>
        rw [hc] at hget
        rw [step_PUTC prog s hget] at hstep
        simp [pcAfterAction, hget, incPC_cont _ _ hstep]
    | GETC =>
        rw [hc] at hget
        rw [step_GETC prog s hget] at hstep
        cases hinp : s.inp with
        | nil =>
            rw [hinp] at hstep
            simp [pcAfterAction, hget, incPC_cont _ _ hstep]
        | cons ib rest =>
            cases ib with
            | byte b =>
                rw [hinp] at hstep
                simp [pcAfterAction, hget, incPC_cont _ _ hstep]
            | fail =>
                rw [hinp] at hstep
                exact StepRes.noConfusion hstep
    | LOOPSTART e =>
        rw [hc] at hget
        rw [step_LOOPSTART prog s e hget] at hstep
        by_cases hmem : s.mem s.pos = 0
        · rw [if_pos hmem] at hstep
          simp [pcAfterAction, hget, hmem, incPC_cont _ _ hstep]
        · rw [if_neg hmem] at hstep
          simp [pcAfterAction, hget, hmem, incPC_cont _ _ hstep]
    | LOOPEND t =>
        rw [hc] at hget
        simp [isLoopEndAt, hget] at hle
  · cases hc : prog[s.pc] with
    | INCPTR a =>
        rw [hc] at hget
        rw [step_INCPTR prog s a hget]
        by_cases hin : inIsize (s.pos + a)
        · rw [if_pos hin, incPC_err_iff]
          simp [isLoopEndAt, ownActionFails, pcAfterAction, hget, hin]
        · rw [if_neg hin]
          refine iff_of_false ?_ ?_
          · intro hcontra
            injection hcontra with hmsg
            exact absurd hmsg (by decide)
          · rintro ⟨_, hnf, _⟩
            apply hnf
            show ownActionFails prog s
            simp only [ownActionFails, hget]
            exact hin
    | DECPTR a =>
        rw [hc] at hget
        rw [step_DECPTR prog s a hget]
        by_cases hin : inIsize (s.pos - a)
        · rw [if_pos hin, incPC_err_iff]
          simp [isLoopEndAt, ownActionFails, pcAfterAction, hget, hin]
        · rw [if_neg hin]
          refine iff_of_false ?_ ?_
          · intro hcontra
            injection hcontra with hmsg
            exact absurd hmsg (by decide)
          · rintro ⟨_, hnf, _⟩
            apply hnf
            show ownActionFails prog s
            simp only [ownActionFails, hget]
            exact hin
    | INCVAL a =>
        rw [hc] at hget
        rw [step_INCVAL prog s a hget, incPC_err_iff]
        simp [isLoopEndAt, ownActionFails, pcAfterAction, hget]
    | DECVAL a =>
        rw [hc] at hget
        rw [step_DECVAL prog s a hget, incPC_err_iff]
        simp [isLoopEndAt, ownActionFails, pcAfterAction, hget]
    | PUTC =>
        rw [hc] at hget
        rw [step_PUTC prog s hget, incPC_err_iff]
        simp [isLoopEndAt, ownActionFails, pcAfterAction, hget]
    | GETC =>
        rw [hc] at hget
        cases hinp : s.inp with
        | nil =>
            have hred : step prog s = incPC s := by
              rw [step_GETC prog s hget, hinp]
            rw [hred, incPC_err_iff]
            simp [isLoopEndAt, ownActionFails, pcAfterAction, hget, hinp]
        | cons ib rest =>
            cases ib with
            | byte b =>
                have hred : step prog s =
                    incPC { s with mem := memWrite s.mem s.pos b, inp := rest } := by
                  rw [step_GETC prog s hget, hinp]
                rw [hred, incPC_err_iff]
                simp [isLoopEndAt, ownActionFails, pcAfterAction, hget, hinp]
            | fail =>
                have hred : step prog s = .err "Reading from input failed" := by
                  rw [step_GETC prog s hget, hinp]
                rw [hred]
                refine iff_of_false ?_ ?_
                · intro hcontra
                  injection hcontra with hmsg
                  exact absurd hmsg (by decide)
                · rintro ⟨_, hnf, _⟩
                  apply hnf
                  show ownActionFails prog s
                  simp only [ownActionFails, hget]
                  exact ⟨rest, hinp⟩
    | LOOPSTART e =>
        rw [hc] at hget
        rw [step_LOOPSTART prog s e hget]
        by_cases hmem : s.mem s.pos = 0
        · rw [if_pos hmem, incPC_err_iff]
          simp [isLoopEndAt, ownActionFails, pcAfterAction, hget, hmem]
        · rw [if_neg hmem, incPC_err_iff]
          simp [isLoopEndAt, ownActionFails, pcAfterAction, hget, hmem]
    | LOOPEND t =>
        rw [hc] at hget
        rw [step_LOOPEND prog s t hget]
        refine iff_of_false (fun hcontra => StepRes.noConfusion hcontra) ?_
        rintro ⟨hle, _, _⟩
        simp [isLoopEndAt, hget] at hle

/-- Witness for `movePointer_and_pc_semantics`: the pointer-overflow
characterization at the one-instruction program `>` started in the
initial state. -/
theorem movePointer_semantics_witness :
    step [Command.INCPTR 1] ⟨fun _ => 0, 0, 0, [], []⟩ =
        .err "Pointer overflow" ↔ ¬ inIsize (0 + 1) :=
  (movePointer_and_pc_semantics [Command.INCPTR 1] ⟨fun _ => 0, 0, 0, [], []⟩
    (by decide)).1 1 rfl

/--
C10: `Output` appends exactly the byte stored at the current tape
address (0 when never written, since the memory map defaults to 0) and
leaves the memory, the tape pointer and the input untouched;
`LOOPSTART` and `LOOPEND` change only the program counter.  The record
updates in the conclusions state the frame conditions: every field not
mentioned is unchanged.
-/
theorem output_and_loops_frame (prog : List Command) (s : EState)
    (h1 : s.pc < prog.length) (h2 : prog.length ≤ usizeMax) :
    (prog[s.pc]? = some .PUTC →
      step prog s = .cont { s with pc := s.pc + 1, out := s.out ++ [s.mem s.pos] }) ∧
    (∀ e, prog[s.pc]? = some (.LOOPSTART e) → e + 1 ≤ usizeMax →
      step prog s = .cont { s with pc := (if s.mem s.pos = 0 then e else s.pc) + 1 }) ∧
    (∀ t, prog[s.pc]? = some (.LOOPEND t) → step prog s = .cont { s with pc := t }) := by
  have hpc : s.pc + 1 ≤ usizeMax := by omega
  refine ⟨?_, ?_, ?_⟩
  · intro hget
    rw [step_PUTC prog s hget]
    exact incPC_ok _ hpc
  · intro e hget hbound
    rw [step_LOOPSTART prog s e hget]
    by_cases hmem : s.mem s.pos = 0
    · rw [if_pos hmem]
      have := incPC_ok { s with pc := e } hbound
      rw [this]
      rw [if_pos hmem]
    · rw [if_neg hmem]
      have := incPC_ok s hpc
      rw [this]
      rw [if_neg hmem]
  · intro t hget
    exact step_LOOPEND prog s t hget

/-- Witness for `output_and_loops_frame`: the one-instruction program
`.` in the initial state emits the byte 0 and only advances the program
counter. -/
theorem output_frame_witness :
    step [Command.PUTC] ⟨fun _ => 0, 0, 0, [], []⟩ =
      .cont ⟨fun _ => 0, 0, 1, [], [0]⟩ :=
  (output_and_loops_frame [Command.PUTC] ⟨fun _ => 0, 0, 0, [], []⟩
    (by decide) (by decide)).1 rfl

/-! ### The full driver including the Execution Engine (claim C2) -/

/-- Result of the full driver: a panic of a stage, an error returned
before execution starts, or the Execution Engine's run result. -/
inductive DriverRes where
  | panicked
  | err (msg : String)
  | ran (res : RunRes)

/-- The complete `run` driver from the source: the front-end pipeline
(`preprocess`, `tokenize`, `optimize`, `find_loops`) followed by
`Program::run` on the resolved program, started with empty memory,
pointer 0 and program counter 0 against the given input source (the
fuel bounds the unbounded Rust loop).  An error from a front-end stage
is returned before execution begins. -/
def driver (src : List Char) (inp : List InByte) (fuel : Nat) : DriverRes :=
  match pipeline src with
  | .panicked => .panicked
  | .err e => .err e
  | .ok resolved => .ran (runFuel resolved fuel ⟨fun _ => 0, 0, 0, inp, []⟩)

/--
C2 (amended): the driver applies its stages in the order Preprocessor,
Tokenizer, Optimizer, Loop Resolver, Execution Engine, each stage
consuming the previous stage's output; in particular loop resolution
runs on the optimizer's output, not on the tokenizer's, and whenever
the front end succeeds the Execution Engine interprets exactly the
Loop Resolver's output, starting from the fresh initial state.
-/
theorem pipeline_stage_order (src : List Char) (r : List Command)
    (h : pipeline src = .ok r) :
    ∃ commands opt, tokenize (preprocess src) = some commands ∧
      optimize commands = some opt ∧ find_loops opt = .ok r ∧
      ∀ (inp : List InByte) (fuel : Nat), driver src inp fuel =
        .ran (runFuel r fuel ⟨fun _ => 0, 0, 0, inp, []⟩) := by
  have hdrv : ∀ (inp : List InByte) (fuel : Nat), driver src inp fuel =
      .ran (runFuel r fuel ⟨fun _ => 0, 0, 0, inp, []⟩) := by
    intro inp fuel
    unfold driver
    rw [h]
  unfold pipeline at h
  split at h
  · exact absurd h (by simp)
  next commands ht =>
    split at h
    · exact absurd h (by simp)
    next opt ho =>
      split at h
      next e hf => exact absurd h (by simp)
      next resolved hf =>
        cases h
        exact ⟨commands, opt, ht, ho, hf, hdrv⟩

/-- Witness for `pipeline_stage_order` at the concrete source `[+-]`. -/
theorem pipeline_stage_order_witness :
    ∃ commands opt, tokenize (preprocess ['[', '+', '-', ']']) = some commands ∧
      optimize commands = some opt ∧
      find_loops opt = .ok [.LOOPSTART 1, .LOOPEND 0] ∧
      ∀ (inp : List InByte) (fuel : Nat),
        driver ['[', '+', '-', ']'] inp fuel =
          .ran (runFuel [.LOOPSTART 1, .LOOPEND 0] fuel ⟨fun _ => 0, 0, 0, inp, []⟩) :=
  pipeline_stage_order ['[', '+', '-', ']'] [.LOOPSTART 1, .LOOPEND 0] (by decide)

end Brainrust







